import Mathlib

/-!
Verification development for the scenario extraction and command-compilation
engine of `scripts/record_oracle_goldens.py`.

The script is shallowly embedded: Python strings become `List Char`, Python
floats become exact IEEE-754 binary64 values (`PyFloat`, a dyadic rational
`m * 2^e` produced by correct rounding), Python's `re` patterns become a small
backtracking regex engine with Python's leftmost / greedy-lazy preference
order, and fallible code returns `Except`.  All definitions are executable and
kernel-reducible (fuel instead of well-founded recursion), so concrete runs of
the pipeline can be settled by `decide` / `rfl`.

Modelling notes (out-of-scope corners, none reachable in the statements below):
floats outside the finite binary64 range (overflow to infinity) and the sign
of negative zero are not modelled; `\s`, `\w` and `str.strip` use the ASCII
character sets (all texts considered are ASCII).
-/

set_option maxRecDepth 20000

deriving instance DecidableEq for Except

namespace S2P

/-! ## Small utilities -/

/-- Characters counted as whitespace (ASCII part of Python's `\s` and
`str.strip`). -/
def isSpaceChar (c : Char) : Bool :=
  c = ' ' ∨ c = '\t' ∨ c = '\n' ∨ c = '\r' ∨ c = '\x0b' ∨ c = '\x0c'

/-- Python `\w`: word characters (ASCII part). -/
def isWordChar (c : Char) : Bool :=
  ('A' ≤ c ∧ c ≤ 'Z') ∨ ('a' ≤ c ∧ c ≤ 'z') ∨ ('0' ≤ c ∧ c ≤ '9') ∨ c = '_'

/-- Python `str.strip()`: drop leading and trailing whitespace. -/
def pyStrip (s : List Char) : List Char :=
  ((s.dropWhile isSpaceChar).reverse.dropWhile isSpaceChar).reverse

def digitChar (n : Nat) : Char := Char.ofNat (48 + n)

/-- Decimal digits of a natural number, most significant first (fueled,
structural). -/
def natDigitsAux : Nat → Nat → List Char
  | 0, _ => []
  | fuel+1, n => if n = 0 then [] else natDigitsAux fuel (n / 10) ++ [digitChar (n % 10)]

def natDigits (n : Nat) : List Char :=
  if n = 0 then ['0'] else natDigitsAux (n + 1) n

/-- Number of bits of a natural number (fueled, structural). -/
def bitlenAux : Nat → Nat → Nat
  | 0, _ => 0
  | fuel+1, n => if n = 0 then 0 else bitlenAux fuel (n / 2) + 1

def bitlen (n : Nat) : Nat := bitlenAux (n + 1) n

/-! ## Python floats: exact binary64 values

A Python `float` is an IEEE-754 binary64 number.  We represent finite values
exactly as `m * 2^e` with `m : Int`, `e : Int`; `mkB64` performs correct
rounding (round-to-nearest, ties-to-even) of an arbitrary rational `n / d`,
so each arithmetic operation is the exact rational operation followed by
`mkB64`, which is precisely IEEE binary64 arithmetic in the finite range. -/

structure PyFloat where
  m : Int
  e : Int
deriving DecidableEq, Repr

/-- `n/d ≥ 2^k`? (`n, d > 0`). -/
def qGePow2 (n d : Nat) (k : Int) : Bool :=
  if 0 ≤ k then d * 2 ^ k.toNat ≤ n else d ≤ n * 2 ^ (-k).toNat

/-- `⌊log₂ (n/d)⌋` for `n, d > 0`. -/
def ilog2q (n d : Nat) : Int :=
  let approx : Int := (bitlen n : Int) - (bitlen d : Int)
  if qGePow2 n d approx then approx else approx - 1

/-- `n/d ≥ 10^k`? (`n, d > 0`). -/
def qGePow10 (n d : Nat) (k : Int) : Bool :=
  if 0 ≤ k then d * 10 ^ k.toNat ≤ n else d ≤ n * 10 ^ (-k).toNat

/-- `⌊log₁₀ (n/d)⌋` for `n, d > 0`. -/
def ilog10q (n d : Nat) : Int :=
  let approx : Int := ((natDigits n).length : Int) - ((natDigits d).length : Int)
  if qGePow10 n d approx then approx else approx - 1

/-- Round `n / d` to the nearest integer, ties to even. -/
def roundQuot (n d : Nat) : Nat :=
  let q := n / d
  let r := n % d
  if 2 * r < d then q else if d < 2 * r then q + 1 else if q % 2 = 0 then q else q + 1

/-- Correctly rounded binary64 value of the positive rational `a / d`. -/
def mkB64pos (a d : Nat) : PyFloat :=
  let ev := ilog2q a d
  let g : Int := max (ev - 52) (-1074)
  let m := if 0 ≤ g then roundQuot a (d * 2 ^ g.toNat) else roundQuot (a * 2 ^ (-g).toNat) d
  if m = 0 then { m := 0, e := 0 }
  else if m = 2 ^ 53 then { m := 2 ^ 52, e := g + 1 }
  else { m := (m : Int), e := g }

/-- Correctly rounded binary64 value of the rational `n / d` (`d > 0`;
`d = 0` is guarded by all callers). -/
def mkB64 (n : Int) (d : Nat) : PyFloat :=
  if n = 0 ∨ d = 0 then { m := 0, e := 0 }
  else
    let f := mkB64pos n.natAbs d
    if n < 0 then { m := -f.m, e := f.e } else f

/-- The exact value of a `PyFloat` as a fraction (numerator, positive
denominator). -/
def PyFloat.toFrac (x : PyFloat) : Int × Nat :=
  if 0 ≤ x.e then (x.m * ((2 ^ x.e.toNat : Nat) : Int), 1) else (x.m, 2 ^ (-x.e).toNat)

def fneg (x : PyFloat) : PyFloat := { m := -x.m, e := x.e }

def fadd (x y : PyFloat) : PyFloat :=
  let p := x.toFrac
  let q := y.toFrac
  mkB64 (p.1 * (q.2 : Int) + q.1 * (p.2 : Int)) (p.2 * q.2)

def fsub (x y : PyFloat) : PyFloat :=
  let p := x.toFrac
  let q := y.toFrac
  mkB64 (p.1 * (q.2 : Int) - q.1 * (p.2 : Int)) (p.2 * q.2)

def fmul (x y : PyFloat) : PyFloat :=
  let p := x.toFrac
  let q := y.toFrac
  mkB64 (p.1 * q.1) (p.2 * q.2)

/-- Binary64 division; callers guard `y ≠ 0`. -/
def fdiv (x y : PyFloat) : PyFloat :=
  let p := x.toFrac
  let q := y.toFrac
  let n : Int := p.1 * (q.2 : Int)
  let dd : Int := q.1 * (p.2 : Int)
  mkB64 (if dd < 0 then -n else n) dd.natAbs

/-- Python `float(int)`. -/
def intToF (n : Int) : PyFloat := mkB64 n 1

/-- Python `int(float)`: truncation toward zero. -/
def pyTrunc (x : PyFloat) : Int :=
  let a := x.m.natAbs
  let q := if 0 ≤ x.e then a * 2 ^ x.e.toNat else a / 2 ^ (-x.e).toNat
  if x.m < 0 then -(q : Int) else (q : Int)

/-! ## Python `repr` of a float

CPython prints the shortest decimal string that round-trips to the same
binary64 value, using fixed notation when the decimal exponent lies in
`[-4, 15]` and scientific notation otherwise.  The shortest string is found
by rounding the exact value correctly to `k = 1, 2, …, 17` significant
digits and taking the first `k` whose decimal reads back (by correct binary64
rounding) to the original value. -/

/-- Round `n/d` to `k` significant decimal digits (given `e10 = ⌊log₁₀(n/d)⌋`);
returns the digit block and the possibly bumped decimal exponent. -/
def reprDigitsFor (n d : Nat) (e10 : Int) (k : Nat) : Nat × Int :=
  let s : Int := (k : Int) - 1 - e10
  let D := if 0 ≤ s then roundQuot (n * 10 ^ s.toNat) d else roundQuot n (d * 10 ^ (-s).toNat)
  if D = 10 ^ k then (10 ^ (k - 1), e10 + 1) else (D, e10)

/-- Binary64 value of the decimal `D * 10^pt`. -/
def decToF (D : Nat) (pt : Int) : PyFloat :=
  if 0 ≤ pt then mkB64 ((D * 10 ^ pt.toNat : Nat) : Int) 1 else mkB64 (D : Int) (10 ^ (-pt).toNat)

/-- Smallest `k ≤ 17` whose correctly rounded `k`-digit decimal round-trips. -/
def shortestDigits (f : PyFloat) (n d : Nat) (e10 : Int) : Nat → Nat → Nat × Int
  | 0, _ => reprDigitsFor n d e10 17
  | fuel+1, k =>
    let r := reprDigitsFor n d e10 k
    if 17 ≤ k then r
    else if decToF r.1 (r.2 - (k : Int) + 1) = f then r
    else shortestDigits f n d e10 fuel (k + 1)

def zeroChars (n : Nat) : List Char := List.replicate n '0'

def fmtFixed (ds : List Char) (e10 : Int) : List Char :=
  if 0 ≤ e10 then
    let e := e10.toNat
    if ds.length ≤ e + 1 then ds ++ zeroChars (e + 1 - ds.length) ++ ['.', '0']
    else ds.take (e + 1) ++ '.' :: ds.drop (e + 1)
  else '0' :: '.' :: (zeroChars ((-e10).toNat - 1) ++ ds)

def fmtSci (ds : List Char) (e10 : Int) : List Char :=
  let mant := match ds with
    | [] => ['0']
    | c :: rest => if rest.isEmpty then [c] else c :: '.' :: rest
  let esign := if e10 < 0 then '-' else '+'
  let edig := natDigits e10.natAbs
  let edig2 := if edig.length < 2 then '0' :: edig else edig
  mant ++ 'e' :: esign :: edig2

def pyReprPos (f : PyFloat) : List Char :=
  let fr := f.toFrac
  let n := fr.1.natAbs
  let d := fr.2
  let e10 := ilog10q n d
  let r := shortestDigits f n d e10 18 1
  let ds := natDigits r.1
  if -4 ≤ r.2 ∧ r.2 ≤ 15 then fmtFixed ds r.2 else fmtSci ds r.2

/-- Python `repr(float)` (finite values; the sign of `-0.0` is not modelled). -/
def pyRepr (x : PyFloat) : String :=
  if x.m = 0 then "0.0"
  else if x.m < 0 then String.mk ('-' :: pyReprPos { m := -x.m, e := x.e })
  else String.mk (pyReprPos x)

/-! ## Error values

One error type for the whole script; Python exceptions become constructors
(`ValueError` messages are identified by constructor, `SyntaxError` from
`ast.parse` by `syntaxErr`). -/

inductive Err
  | syntaxErr
  | unsupportedExpr
  | unknownVar (name : List Char)
  | zeroDiv
  | invalidBool
  | invalidMixBlend
  | invalidPhysics
  | unbalanced
  | unbalancedSlow
  | failedAt (pos : Nat) (inner : Err)
  | invalidLoopRepeat (n : Int)
  | findBraceMissing
  | nonzeroExit
  | badJson
  | fuelOut
deriving DecidableEq, Repr

/-! ## `safe_eval_f32`: Python's `ast.parse(expr, mode="eval")` on the
arithmetic fragment, plus the source's `eval_node` walker

The AST mirrors the `ast` node kinds the walker inspects.  The tokenizer /
parser implements Python's expression grammar restricted to the token set
reachable here (numbers, identifiers, `+ - * / ( ) ,`, the keyword constants);
any other character is a syntax error, as it would be for `ast.parse` on the
same fragment.  `not` / `~` / `**` etc. cannot be produced by this token set,
so the corresponding unsupported-operator branches of `eval_node` are
unreachable in the model (they would fall to the same `unsupportedExpr`). -/

inductive PyConst
  | intC (n : Int)
  | floatC (f : PyFloat)
  | boolC (b : Bool)
  | noneC
deriving DecidableEq, Repr

inductive UOp
  | uadd
  | usub
deriving DecidableEq, Repr

inductive BOp
  | add
  | sub
  | mult
  | div
deriving DecidableEq, Repr

inductive PyExpr
  | constE (c : PyConst)
  | nameE (id : List Char)
  | unaryE (op : UOp) (e : PyExpr)
  | binE (a : PyExpr) (op : BOp) (b : PyExpr)
  | callE (f : PyExpr) (args : List PyExpr)
deriving Repr

inductive ETok
  | num (c : PyConst)
  | ident (s : List Char)
  | sym (c : Char)
deriving DecidableEq, Repr

def isDigitChar (c : Char) : Bool := '0' ≤ c ∧ c ≤ '9'

def isIdentStart (c : Char) : Bool :=
  ('A' ≤ c ∧ c ≤ 'Z') ∨ ('a' ≤ c ∧ c ≤ 'z') ∨ c = '_'

/-- Split off a maximal run of decimal digits. -/
def takeDigits : List Char → List Char × List Char
  | [] => ([], [])
  | c :: r =>
    if isDigitChar c then
      let p := takeDigits r
      (c :: p.1, p.2)
    else ([], c :: r)

def takeIdent : List Char → List Char × List Char
  | [] => ([], [])
  | c :: r =>
    if isWordChar c then
      let p := takeIdent r
      (c :: p.1, p.2)
    else ([], c :: r)

def digitsVal (ds : List Char) : Nat :=
  ds.foldl (fun a c => a * 10 + (c.toNat - 48)) 0

/-- Numeric literal value: integer if it has no point and no exponent,
else the correctly rounded binary64 of the decimal (what `float()` of the
literal yields). -/
def numConst (ip fp : List Char) (isFloat : Bool) (eneg : Bool) (edigs : List Char) : PyConst :=
  if isFloat then
    let d := digitsVal (ip ++ fp)
    let ex : Int := (if eneg then -(digitsVal edigs : Int) else (digitsVal edigs : Int)) - (fp.length : Int)
    if 0 ≤ ex then .floatC (mkB64 ((d * 10 ^ ex.toNat : Nat) : Int) 1)
    else .floatC (mkB64 (d : Int) (10 ^ (-ex).toNat))
  else .intC (digitsVal ip : Int)

/-- Tokenize the expression text (fueled; fuel is decremented at least once
per consumed character, so `length + 1` always suffices). -/
def tokenizeAux : Nat → List Char → Except Err (List ETok)
  | 0, _ => .error .fuelOut
  | _+1, [] => .ok []
  | fuel+1, c :: r =>
    if isSpaceChar c then tokenizeAux fuel r
    else if isDigitChar c ∨ (c = '.' ∧ (r.head?.map isDigitChar).getD false) then
      let p1 := takeDigits (c :: r)
      let ip := p1.1
      let afterInt := p1.2
      let hasDot := afterInt.head? = some '.'
      let p2 := if hasDot then takeDigits afterInt.tail else ([], afterInt)
      let fp := p2.1
      let afterFrac := p2.2
      match afterFrac with
      | 'e' :: r2 =>
        let eneg := r2.head? = some '-'
        let r3 := if r2.head? = some '-' ∨ r2.head? = some '+' then r2.tail else r2
        let p3 := takeDigits r3
        if p3.1.isEmpty then .error .syntaxErr
        else do
          let rest ← tokenizeAux fuel p3.2
          .ok (.num (numConst ip fp true eneg p3.1) :: rest)
      | 'E' :: r2 =>
        let eneg := r2.head? = some '-'
        let r3 := if r2.head? = some '-' ∨ r2.head? = some '+' then r2.tail else r2
        let p3 := takeDigits r3
        if p3.1.isEmpty then .error .syntaxErr
        else do
          let rest ← tokenizeAux fuel p3.2
          .ok (.num (numConst ip fp true eneg p3.1) :: rest)
      | _ => do
        let rest ← tokenizeAux fuel afterFrac
        .ok (.num (numConst ip fp hasDot false []) :: rest)
    else if isIdentStart c then
      let p := takeIdent (c :: r)
      do
        let rest ← tokenizeAux fuel p.2
        .ok (.ident p.1 :: rest)
    else if c = '+' ∨ c = '-' ∨ c = '*' ∨ c = '/' ∨ c = '(' ∨ c = ')' ∨ c = ',' then do
      let rest ← tokenizeAux fuel r
      .ok (.sym c :: rest)
    else .error .syntaxErr

/-- Parser modes for the single fueled recursive-descent worker
(additive / multiplicative / unary levels, atoms, call trailers and
argument lists; mirrors Python's precedence for this fragment). -/
inductive PMode
  | addE
  | addR (acc : PyExpr)
  | mulE
  | mulR (acc : PyExpr)
  | unE
  | atomE
  | trail (e : PyExpr)
  | argsE (f : PyExpr) (acc : List PyExpr)

def keywordConst (s : List Char) : Option PyConst :=
  if s = ("True").toList then some (.boolC true)
  else if s = ("False").toList then some (.boolC false)
  else if s = ("None").toList then some .noneC
  else none

def parseStep : Nat → PMode → List ETok → Except Err (PyExpr × List ETok)
  | 0, _, _ => .error .fuelOut
  | fuel+1, m, ts =>
    match m with
    | .addE => do
      let p ← parseStep fuel .mulE ts
      parseStep fuel (.addR p.1) p.2
    | .addR acc =>
      match ts with
      | .sym '+' :: r => do
        let p ← parseStep fuel .mulE r
        parseStep fuel (.addR (.binE acc .add p.1)) p.2
      | .sym '-' :: r => do
        let p ← parseStep fuel .mulE r
        parseStep fuel (.addR (.binE acc .sub p.1)) p.2
      | _ => .ok (acc, ts)
    | .mulE => do
      let p ← parseStep fuel .unE ts
      parseStep fuel (.mulR p.1) p.2
    | .mulR acc =>
      match ts with
      | .sym '*' :: r => do
        let p ← parseStep fuel .unE r
        parseStep fuel (.mulR (.binE acc .mult p.1)) p.2
      | .sym '/' :: r => do
        let p ← parseStep fuel .unE r
        parseStep fuel (.mulR (.binE acc .div p.1)) p.2
      | _ => .ok (acc, ts)
    | .unE =>
      match ts with
      | .sym '+' :: r => do
        let p ← parseStep fuel .unE r
        .ok (.unaryE .uadd p.1, p.2)
      | .sym '-' :: r => do
        let p ← parseStep fuel .unE r
        .ok (.unaryE .usub p.1, p.2)
      | _ => do
        let a ← parseStep fuel .atomE ts
        parseStep fuel (.trail a.1) a.2
    | .atomE =>
      match ts with
      | .num c :: r => .ok (.constE c, r)
      | .ident s :: r =>
        match keywordConst s with
        | some c => .ok (.constE c, r)
        | none => .ok (.nameE s, r)
      | .sym '(' :: r => do
        let p ← parseStep fuel .addE r
        match p.2 with
        | .sym ')' :: r2 => .ok (p.1, r2)
        | _ => .error .syntaxErr
      | _ => .error .syntaxErr
    | .trail e =>
      match ts with
      | .sym '(' :: .sym ')' :: r => parseStep fuel (.trail (.callE e [])) r
      | .sym '(' :: r => parseStep fuel (.argsE e []) r
      | _ => .ok (e, ts)
    | .argsE f acc => do
      let p ← parseStep fuel .addE ts
      match p.2 with
      | .sym ',' :: r2 => parseStep fuel (.argsE f (acc ++ [p.1])) r2
      | .sym ')' :: r2 => parseStep fuel (.trail (.callE f (acc ++ [p.1]))) r2
      | _ => .error .syntaxErr

/-- `ast.parse(s, mode="eval")` for the arithmetic fragment. -/
def pyParseExpr (s : List Char) : Except Err PyExpr := do
  let ts ← tokenizeAux (s.length + 1) s
  let p ← parseStep (16 * s.length + 64) .addE ts
  if p.2 = [] then .ok p.1 else .error .syntaxErr

/-- `isinstance(n.value, (int, float))` — true for `int`, `float` and `bool`
(a subclass of `int` in Python), with `float()` applied. -/
def constNum : PyConst → Option PyFloat
  | .intC n => some (intToF n)
  | .floatC f => some f
  | .boolC b => some (intToF (if b then 1 else 0))
  | .noneC => none

/-- The source's `eval_node`: numeric constants, unary `+`/`-` and binary
`+ - * /` are evaluated; every other node raises the unsupported-expression
`ValueError`.  Note there is no `ast.Name` case — identifiers inside an
expression are unsupported. -/
def evalNode : PyExpr → Except Err PyFloat
  | .constE c =>
    match constNum c with
    | some v => .ok v
    | none => .error .unsupportedExpr
  | .unaryE op e => do
    let v ← evalNode e
    match op with
    | .uadd => .ok v
    | .usub => .ok (fneg v)
  | .binE a op b => do
    let va ← evalNode a
    let vb ← evalNode b
    match op with
    | .add => .ok (fadd va vb)
    | .sub => .ok (fsub va vb)
    | .mult => .ok (fmul va vb)
    | .div => if vb.m = 0 then .error .zeroDiv else .ok (fdiv va vb)
  | .nameE _ => .error .unsupportedExpr
  | .callE _ _ => .error .unsupportedExpr

/-- `safe_eval_f32(expr)`: strip underscores and surrounding whitespace,
parse, walk. -/
def safe_eval_f32 (expr : List Char) : Except Err PyFloat := do
  let stripped := pyStrip (expr.filter (fun c => ¬ (c = '_')))
  let ast ← pyParseExpr stripped
  evalNode ast

/-! ## Constant environment and scalar token parsers -/

/-- A Python `dict` keyed by identifier: association list in insertion
order, with in-place overwrite on re-insertion (`d[k] = v`). -/
abbrev Env := List (List Char × PyFloat)

def envLookup (env : Env) (k : List Char) : Option PyFloat :=
  (env.find? (fun p => p.1 = k)).map (fun p => p.2)

def envUpsert (k : List Char) (v : PyFloat) : Env → Env
  | [] => [(k, v)]
  | p :: rest => if p.1 = k then (k, v) :: rest else p :: envUpsert k v rest

/-- `re.fullmatch(r"[A-Za-z_][A-Za-z0-9_]*", s)` as a predicate. -/
def fullmatchIdent (s : List Char) : Bool :=
  match s with
  | [] => false
  | c :: r => isIdentStart c ∧ r.all isWordChar

/-- `parse_value(token, env)`: a stripped bare identifier is looked up in the
environment (missing → unknown-variable error); anything else goes to
`safe_eval_f32`. -/
def parse_value (token : List Char) (env : Env) : Except Err PyFloat :=
  let t := pyStrip token
  if fullmatchIdent t then
    match envLookup env t with
    | none => .error (.unknownVar t)
    | some v => .ok v
  else safe_eval_f32 t

/-- `parse_bool`. -/
def parse_bool (token : List Char) : Except Err String :=
  let t := pyStrip token
  if t = ("true").toList then .ok "1"
  else if t = ("false").toList then .ok "0"
  else .error .invalidBool

/-- `parse_mix_blend`. -/
def parse_mix_blend (variant : List Char) : Except Err String :=
  let v := pyStrip variant
  if v = ("Setup").toList then .ok "setup"
  else if v = ("First").toList then .ok "first"
  else if v = ("Replace").toList then .ok "replace"
  else if v = ("Add").toList then .ok "add"
  else .error .invalidMixBlend

/-- `parse_physics_mode`. -/
def parse_physics_mode (variant : List Char) : Except Err String :=
  let v := pyStrip variant
  if v = ("None").toList then .ok "none"
  else if v = ("Reset").toList then .ok "reset"
  else if v = ("Update").toList then .ok "update"
  else if v = ("Pose").toList then .ok "pose"
  else .error .invalidPhysics

/-- `value_to_string(v)` = `repr(float(v))`. -/
def value_to_string (v : PyFloat) : String := pyRepr v

/-! ## Regex engine

A backtracking matcher for the fragment of Python `re` used by the script:
literals, character classes, alternation (left-preferring), greedy and lazy
repetition, groups, and `\b`.  `mat` returns the list of all match end
positions (with captures) in Python's backtracking preference order, so the
head of the list is exactly the match Python's engine finds.  None of the
script's patterns contains a bare `.`, so the `re.S` flag is irrelevant
(`[\s\S]` appears literally and is encoded as such). -/

inductive CI
  | chC (c : Char)
  | rangeC (lo hi : Char)
  | spaceC
  | nspaceC
deriving DecidableEq, Repr

def ciMatch : CI → Char → Bool
  | .chC d, c => c = d
  | .rangeC lo hi, c => lo ≤ c ∧ c ≤ hi
  | .spaceC, c => isSpaceChar c
  | .nspaceC, c => ¬ (isSpaceChar c = true)

def clsHolds (neg : Bool) (items : List CI) (c : Char) : Bool :=
  if neg then ¬ (items.any (fun i => ciMatch i c) = true) else items.any (fun i => ciMatch i c)

inductive RE
  | eps
  | chR (c : Char)
  | clsR (neg : Bool) (items : List CI)
  | seqR (a b : RE)
  | altR (a b : RE)
  | starR (lzy : Bool) (a : RE)
  | groupR (idx : Nat) (a : RE)
  | wordB
deriving DecidableEq, Repr

/-- Group captures: `(index, start, stop)`, most recent first. -/
abbrev Caps := List (Nat × Nat × Nat)

/-- Repetition worker: enumerates continuation positions, preferring more
iterations (greedy) or fewer (lazy); an iteration must consume at least one
character, so `fuel = remaining + 1` is always enough. -/
def starLoop (f : Nat → Caps → List (Nat × Caps)) (lzy : Bool) :
    Nat → Nat → Caps → List (Nat × Caps)
  | 0, p, cp => [(p, cp)]
  | fuel+1, p, cp =>
    let deeper := ((f p cp).filter (fun r => p < r.1)).flatMap
      (fun r => starLoop f lzy fuel r.1 r.2)
    if lzy then (p, cp) :: deeper else deeper ++ [(p, cp)]

/-- All ways to match `re` in `t` starting at position `p`, in preference
order. -/
def mat (t : List Char) : RE → Nat → Caps → List (Nat × Caps)
  | .eps, p, cp => [(p, cp)]
  | .chR c, p, cp =>
    match t.get? p with
    | some d => if d = c then [(p + 1, cp)] else []
    | none => []
  | .clsR neg items, p, cp =>
    match t.get? p with
    | some d => if clsHolds neg items d then [(p + 1, cp)] else []
    | none => []
  | .seqR a b, p, cp => (mat t a p cp).flatMap (fun r => mat t b r.1 r.2)
  | .altR a b, p, cp => mat t a p cp ++ mat t b p cp
  | .starR lzy a, p, cp => starLoop (fun q c => mat t a q c) lzy (t.length + 1 - p) p cp
  | .groupR i a, p, cp => (mat t a p cp).map (fun r => (r.1, (i, p, r.1) :: r.2))
  | .wordB, p, cp =>
    let cur := match t.get? p with
      | some c => isWordChar c
      | none => false
    let prev := match p with
      | 0 => false
      | q+1 =>
        match t.get? q with
        | some c => isWordChar c
        | none => false
    if cur = prev then [] else [(p, cp)]

structure MatchR where
  start : Nat
  stop : Nat
  caps : Caps
deriving DecidableEq, Repr

/-- Python's match at a fixed position: the first result in preference
order. -/
def matchAtM (t : List Char) (re : RE) (p : Nat) : Option MatchR :=
  match (mat t re p []).head? with
  | some r => some { start := p, stop := r.1, caps := r.2 }
  | none => none

def searchFromAux (t : List Char) (re : RE) : Nat → Nat → Option MatchR
  | 0, _ => none
  | fuel+1, p =>
    match matchAtM t re p with
    | some m => some m
    | none => if p < t.length then searchFromAux t re fuel (p + 1) else none

/-- `re.search` from position `p`: leftmost match. -/
def reSearchFrom (t : List Char) (re : RE) (p : Nat) : Option MatchR :=
  searchFromAux t re (t.length + 1 - p) p

def reSearch (t : List Char) (re : RE) : Option MatchR := reSearchFrom t re 0

def finditerAux (t : List Char) (re : RE) : Nat → Nat → List MatchR
  | 0, _ => []
  | fuel+1, p =>
    match reSearchFrom t re p with
    | none => []
    | some m =>
      let nxt := if m.stop = m.start then m.stop + 1 else m.stop
      m :: finditerAux t re fuel nxt

/-- `re.finditer`: successive non-overlapping leftmost matches. -/
def finditer (t : List Char) (re : RE) : List MatchR := finditerAux t re (t.length + 2) 0

def capSpan (m : MatchR) (i : Nat) : Option (Nat × Nat) :=
  (m.caps.find? (fun c => c.1 = i)).map (fun c => (c.2.1, c.2.2))

/-- `m.group(i)` as a character list (all groups used by the script always
participate in a successful match). -/
def matchGroup (t : List Char) (m : MatchR) (i : Nat) : List Char :=
  match capSpan m i with
  | some s => (t.drop s.1).take (s.2 - s.1)
  | none => []

/-! ### Pattern combinators (one constructor per regex construct) -/

def rcat : List RE → RE
  | [] => .eps
  | r :: rest => .seqR r (rcat rest)

def rlit (s : String) : RE := rcat (s.toList.map RE.chR)

def wsCls : RE := .clsR false [CI.spaceC]

/-- `\s*` -/
def ws0 : RE := .starR false wsCls

/-- `\s+` -/
def ws1 : RE := .seqR wsCls ws0

def rplus (r : RE) : RE := .seqR r (.starR false r)

def rplusLzy (r : RE) : RE := .seqR r (.starR true r)

def ropt (r : RE) : RE := .altR r .eps

/-- `[\s\S]` -/
def anyCls : RE := .clsR false [CI.spaceC, CI.nspaceC]

def identStartCls : RE := .clsR false [CI.rangeC 'A' 'Z', CI.rangeC 'a' 'z', CI.chC '_']

def wordCls : RE := .clsR false [CI.rangeC 'A' 'Z', CI.rangeC 'a' 'z', CI.rangeC '0' '9', CI.chC '_']

def alphaCls : RE := .clsR false [CI.rangeC 'A' 'Z', CI.rangeC 'a' 'z']

/-- `[A-Za-z_][A-Za-z0-9_]*` -/
def reIdent : RE := .seqR identStartCls (.starR false wordCls)

/-- `[^\"]+` -/
def notQuoteP : RE := rplus (.clsR true [CI.chC '"'])

/-- `[^\)]+?` -/
def notParenLzy : RE := rplusLzy (.clsR true [CI.chC ')'])

/-- `[^\),]+?` -/
def notParenCommaLzy : RE := rplusLzy (.clsR true [CI.chC ')', CI.chC ','])

/-- `[^,]+` -/
def notCommaP : RE := rplus (.clsR true [CI.chC ','])

/-- `[0-9]+` -/
def digitsP : RE := rplus (.clsR false [CI.rangeC '0' '9'])

/-- `(true|false)` -/
def trueFalse : RE := .altR (rlit ("true")) (rlit ("false"))

/-- `&mut\s+state` -/
def ampMutState : RE := rcat [.chR '&', rlit ("mut"), ws1, rlit ("state")]

/-- `&mut\s+skeleton` -/
def ampMutSkeleton : RE := rcat [.chR '&', rlit ("mut"), ws1, rlit ("skeleton")]

/-! ## Brace scanners -/

/-- `strip_rust_strings_for_brace_count`, as a fold with the
(`in_str`, `escape`) state machine of the source. -/
def stripRustAux : List Char → Bool → Bool → List Char
  | [], _, _ => []
  | c :: rest, instr, esc =>
    if instr then
      if esc then stripRustAux rest true false
      else if c = '\\' then stripRustAux rest true true
      else if c = '"' then stripRustAux rest false false
      else stripRustAux rest true false
    else
      if c = '"' then stripRustAux rest true false
      else c :: stripRustAux rest false false

def strip_rust_strings_for_brace_count (s : List Char) : List Char :=
  stripRustAux s false false

/-- The loop body of `find_matching_brace_slow`: scan remaining characters
(carrying the absolute index) with the string/escape-aware depth counter;
`none` models the `unbalanced braces (slow)` `ValueError`. -/
def fmbsAux : List Char → Nat → Int → Bool → Bool → Option Nat
  | [], _, _, _, _ => none
  | c :: rest, i, depth, instr, esc =>
    if instr then
      if esc then fmbsAux rest (i + 1) depth true false
      else if c = '\\' then fmbsAux rest (i + 1) depth true true
      else if c = '"' then fmbsAux rest (i + 1) depth false false
      else fmbsAux rest (i + 1) depth true false
    else
      if c = '"' then fmbsAux rest (i + 1) depth true false
      else if c = '{' then fmbsAux rest (i + 1) (depth + 1) false false
      else if c = '}' then
        (if depth - 1 = 0 then some i else fmbsAux rest (i + 1) (depth - 1) false false)
      else fmbsAux rest (i + 1) depth false false

def find_matching_brace_slow (t : List Char) (open_index : Nat) : Option Nat :=
  fmbsAux (t.drop open_index) open_index 0 false false

/-- The inner chunk loop of `find_matching_brace`: brace-count a stripped
chunk; `none` signals that the depth reached zero on some `}` (the source
then returns `find_matching_brace_slow`). -/
def chunkDepth : List Char → Int → Option Int
  | [], d => some d
  | c :: rest, d =>
    if c = '{' then chunkDepth rest (d + 1)
    else if c = '}' then (if d - 1 = 0 then none else chunkDepth rest (d - 1))
    else chunkDepth rest d

/-- The `while i < len(text)` loop of `find_matching_brace` (fuel: the loop
advances `i` by 4096 each pass, so `length + 1` passes always suffice). -/
def fmbAux (t : List Char) (open_index : Nat) : Nat → Nat → Int → Option Nat
  | 0, _, _ => none
  | fuel+1, i, depth =>
    if i < t.length then
      let chunk := strip_rust_strings_for_brace_count ((t.drop i).take 4096)
      match chunkDepth chunk depth with
      | none => find_matching_brace_slow t open_index
      | some d => fmbAux t open_index fuel (i + 4096) d
    else none

def find_matching_brace (t : List Char) (open_index : Nat) : Option Nat :=
  fmbAux t open_index (t.length + 1) open_index 0

/-! ## The command pattern library

Each pattern is the source regex, constructor by constructor, with the
token-builder lambda next to it.  Builders receive the body text and the
constant environment (the source's lambdas close over `env`). -/

abbrev Bld := List Char → Env → MatchR → Except Err (List String)

/-- `(?:state\s*\.\s*data_mut\s*\(\s*\)|[A-Za-z_][A-Za-z0-9_]*)\s*\.\s*set_mix\s*\(\s*\"([^\"]+)\"\s*,\s*\"([^\"]+)\"\s*,\s*([^\)]+?)\s*\)` -/
def patSetMix : RE := rcat [
  .altR (rcat [rlit ("state"), ws0, .chR '.', ws0, rlit ("data_mut"), ws0, .chR '(', ws0, .chR ')'])
        reIdent,
  ws0, .chR '.', ws0, rlit ("set_mix"), ws0, .chR '(', ws0,
  .chR '"', .groupR 1 notQuoteP, .chR '"', ws0, .chR ',', ws0,
  .chR '"', .groupR 2 notQuoteP, .chR '"', ws0, .chR ',', ws0,
  .groupR 3 notParenLzy, ws0, .chR ')']

def bldSetMix : Bld := fun t env m => do
  let v ← parse_value (matchGroup t m 3) env
  .ok ["--mix", String.mk (matchGroup t m 1), String.mk (matchGroup t m 2), value_to_string v]

/-- `state\s*\.\s*set_animation\s*\(\s*([0-9]+)\s*,\s*\"([^\"]+)\"\s*,\s*(true|false)\s*\)` -/
def patSetAnimation : RE := rcat [
  rlit ("state"), ws0, .chR '.', ws0, rlit ("set_animation"), ws0, .chR '(', ws0,
  .groupR 1 digitsP, ws0, .chR ',', ws0,
  .chR '"', .groupR 2 notQuoteP, .chR '"', ws0, .chR ',', ws0,
  .groupR 3 trueFalse, ws0, .chR ')']

def bldSetAnimation : Bld := fun t _ m => do
  let b ← parse_bool (matchGroup t m 3)
  .ok ["--set", String.mk (matchGroup t m 1), String.mk (matchGroup t m 2), b]

/-- `state\s*\.\s*add_animation\s*\(\s*([0-9]+)\s*,\s*\"([^\"]+)\"\s*,\s*(true|false)\s*,\s*([^\)]+?)\s*\)` -/
def patAddAnimation : RE := rcat [
  rlit ("state"), ws0, .chR '.', ws0, rlit ("add_animation"), ws0, .chR '(', ws0,
  .groupR 1 digitsP, ws0, .chR ',', ws0,
  .chR '"', .groupR 2 notQuoteP, .chR '"', ws0, .chR ',', ws0,
  .groupR 3 trueFalse, ws0, .chR ',', ws0,
  .groupR 4 notParenLzy, ws0, .chR ')']

def bldAddAnimation : Bld := fun t env m => do
  let b ← parse_bool (matchGroup t m 3)
  let v ← parse_value (matchGroup t m 4) env
  .ok ["--add", String.mk (matchGroup t m 1), String.mk (matchGroup t m 2), b, value_to_string v]

/-- `state\s*\.\s*set_empty_animation\s*\(\s*([0-9]+)\s*,\s*([^\)]+?)\s*\)` -/
def patSetEmpty : RE := rcat [
  rlit ("state"), ws0, .chR '.', ws0, rlit ("set_empty_animation"), ws0, .chR '(', ws0,
  .groupR 1 digitsP, ws0, .chR ',', ws0,
  .groupR 2 notParenLzy, ws0, .chR ')']

def bldSetEmpty : Bld := fun t env m => do
  let v ← parse_value (matchGroup t m 2) env
  .ok ["--set-empty", String.mk (matchGroup t m 1), value_to_string v]

/-- `state\s*\.\s*add_empty_animation\s*\(\s*([0-9]+)\s*,\s*([^\),]+?)\s*,\s*([^\)]+?)\s*\)` -/
def patAddEmpty : RE := rcat [
  rlit ("state"), ws0, .chR '.', ws0, rlit ("add_empty_animation"), ws0, .chR '(', ws0,
  .groupR 1 digitsP, ws0, .chR ',', ws0,
  .groupR 2 notParenCommaLzy, ws0, .chR ',', ws0,
  .groupR 3 notParenLzy, ws0, .chR ')']

def bldAddEmpty : Bld := fun t env m => do
  let v1 ← parse_value (matchGroup t m 2) env
  let v2 ← parse_value (matchGroup t m 3) env
  .ok ["--add-empty", String.mk (matchGroup t m 1), value_to_string v1, value_to_string v2]

/-- `skeleton\s*\.\s*set_skin\s*\(\s*Some\s*\(\s*\"([^\"]+)\"\s*\)\s*\)` -/
def patSetSkinSome : RE := rcat [
  rlit ("skeleton"), ws0, .chR '.', ws0, rlit ("set_skin"), ws0, .chR '(', ws0,
  rlit ("Some"), ws0, .chR '(', ws0, .chR '"', .groupR 1 notQuoteP, .chR '"', ws0, .chR ')',
  ws0, .chR ')']

def bldSetSkinSome : Bld := fun t _ m =>
  .ok ["--set-skin", String.mk (matchGroup t m 1)]

/-- `skeleton\s*\.\s*set_skin\s*\(\s*None\s*\)` -/
def patSetSkinNone : RE := rcat [
  rlit ("skeleton"), ws0, .chR '.', ws0, rlit ("set_skin"), ws0, .chR '(', ws0,
  rlit ("None"), ws0, .chR ')']

def bldSetSkinNone : Bld := fun _ _ _ => .ok ["--set-skin", "none"]

/-- `\.\s*set_mix_blend\s*\(\s*&mut\s+state\s*,\s*crate::MixBlend::([A-Za-z]+)\s*\)` -/
def patEntryMixBlend : RE := rcat [
  .chR '.', ws0, rlit ("set_mix_blend"), ws0, .chR '(', ws0, ampMutState, ws0, .chR ',', ws0,
  rlit ("crate::MixBlend::"), .groupR 1 (rplus alphaCls), ws0, .chR ')']

def bldEntryMixBlend : Bld := fun t _ m => do
  let b ← parse_mix_blend (matchGroup t m 1)
  .ok ["--entry-mix-blend", b]

/-- `\.\s*NAME\s*\(\s*&mut\s+state\s*,\s*([^\)]+?)\s*\)` — common shape of the
numeric track-entry setters. -/
def entryValPat (name : String) : RE := rcat [
  .chR '.', ws0, rlit name, ws0, .chR '(', ws0, ampMutState, ws0, .chR ',', ws0,
  .groupR 1 notParenLzy, ws0, .chR ')']

def entryValBld (flag : String) : Bld := fun t env m => do
  let v ← parse_value (matchGroup t m 1) env
  .ok [flag, value_to_string v]

/-- `\.\s*NAME\s*\(\s*&mut\s+state\s*,\s*(true|false)\s*\)` — common shape of
the boolean track-entry setters. -/
def entryBoolPat (name : String) : RE := rcat [
  .chR '.', ws0, rlit name, ws0, .chR '(', ws0, ampMutState, ws0, .chR ',', ws0,
  .groupR 1 trueFalse, ws0, .chR ')']

def entryBoolBld (flag : String) : Bld := fun t _ m => do
  let b ← parse_bool (matchGroup t m 1)
  .ok [flag, b]

/-- `\.\s*reset_rotation_directions\s*\(\s*&mut\s+state\s*\)` -/
def patEntryResetRot : RE := rcat [
  .chR '.', ws0, rlit ("reset_rotation_directions"), ws0, .chR '(', ws0, ampMutState, ws0, .chR ')']

def bldEntryResetRot : Bld := fun _ _ _ => .ok ["--entry-reset-rotation-directions"]

/-- `\bstep\s*\(\s*&mut\s+state\s*,\s*&mut\s+skeleton\s*,\s*([^\)]+?)\s*\)` -/
def patStep : RE := rcat [
  .wordB, rlit ("step"), ws0, .chR '(', ws0, ampMutState, ws0, .chR ',', ws0,
  ampMutSkeleton, ws0, .chR ',', ws0, .groupR 1 notParenLzy, ws0, .chR ')']

def bldStep : Bld := fun t env m => do
  let v ← parse_value (matchGroup t m 1) env
  .ok ["--physics", "none", "--step", value_to_string v]

/-- `\bstep_physics\s*\(\s*&mut\s+state\s*,\s*&mut\s+skeleton\s*,\s*([^\)]+?)\s*\)` -/
def patStepPhysics : RE := rcat [
  .wordB, rlit ("step_physics"), ws0, .chR '(', ws0, ampMutState, ws0, .chR ',', ws0,
  ampMutSkeleton, ws0, .chR ',', ws0, .groupR 1 notParenLzy, ws0, .chR ')']

def bldStepPhysics : Bld := fun t env m => do
  let v ← parse_value (matchGroup t m 1) env
  .ok ["--physics", "update", "--step", value_to_string v]

/-- `\bstep_with_physics\s*\(\s*&mut\s+state\s*,\s*&mut\s+skeleton\s*,\s*([^\),]+?)\s*,\s*crate::Physics::([A-Za-z]+)\s*\)` -/
def patStepWithPhysics : RE := rcat [
  .wordB, rlit ("step_with_physics"), ws0, .chR '(', ws0, ampMutState, ws0, .chR ',', ws0,
  ampMutSkeleton, ws0, .chR ',', ws0, .groupR 1 notParenCommaLzy, ws0, .chR ',', ws0,
  rlit ("crate::Physics::"), .groupR 2 (rplus alphaCls), ws0, .chR ')']

def bldStepWithPhysics : Bld := fun t env m => do
  let p ← parse_physics_mode (matchGroup t m 2)
  let v ← parse_value (matchGroup t m 1) env
  .ok ["--physics", p, "--step", value_to_string v]

/-- `\bstate\s*\.\s*update\s*\(\s*([^\)]+?)\s*\)\s*;` -/
def patUpdate : RE := rcat [
  .wordB, rlit ("state"), ws0, .chR '.', ws0, rlit ("update"), ws0, .chR '(', ws0,
  .groupR 1 notParenLzy, ws0, .chR ')', ws0, .chR ';']

def bldUpdate : Bld := fun t env m => do
  let v ← parse_value (matchGroup t m 1) env
  .ok ["--physics", "none", "--step", value_to_string v]

/-- The pattern table, in the source's `add(...)` order. -/
def commandPatterns : List (RE × Bld) := [
  (patSetMix, bldSetMix),
  (patSetAnimation, bldSetAnimation),
  (patAddAnimation, bldAddAnimation),
  (patSetEmpty, bldSetEmpty),
  (patAddEmpty, bldAddEmpty),
  (patSetSkinSome, bldSetSkinSome),
  (patSetSkinNone, bldSetSkinNone),
  (patEntryMixBlend, bldEntryMixBlend),
  (entryValPat ("set_alpha"), entryValBld ("--entry-alpha")),
  (entryValPat ("set_event_threshold"), entryValBld ("--entry-event-threshold")),
  (entryValPat ("set_alpha_attachment_threshold"), entryValBld ("--entry-alpha-attachment-threshold")),
  (entryValPat ("set_mix_attachment_threshold"), entryValBld ("--entry-mix-attachment-threshold")),
  (entryValPat ("set_mix_draw_order_threshold"), entryValBld ("--entry-mix-draw-order-threshold")),
  (entryBoolPat ("set_hold_previous"), entryBoolBld ("--entry-hold-previous")),
  (entryBoolPat ("set_reverse"), entryBoolBld ("--entry-reverse")),
  (entryBoolPat ("set_shortest_rotation"), entryBoolBld ("--entry-shortest-rotation")),
  (patEntryResetRot, bldEntryResetRot),
  (patStep, bldStep),
  (patStepPhysics, bldStepPhysics),
  (patStepWithPhysics, bldStepWithPhysics),
  (patUpdate, bldUpdate)]

/-! ## `parse_commands_no_loops` -/

def mapExc {α β : Type} (f : α → Except Err β) : List α → Except Err (List β)
  | [] => .ok []
  | a :: r => do
    let b ← f a
    let rest ← mapExc f r
    .ok (b :: rest)

/-- Pool `(m.start(), fn(m))` over every pattern's `finditer`, in pattern
order; a builder exception becomes the wrapped `failed to parse at …`
error. -/
def collectMatches (ps : List (RE × Bld)) (t : List Char) (env : Env) :
    Except Err (List (Nat × List String)) :=
  match ps with
  | [] => .ok []
  | (re, fn) :: rest => do
    let ms ← mapExc (fun m =>
      match fn t env m with
      | .ok toks => .ok (m.start, toks)
      | .error e => .error (Err.failedAt m.start e)) (finditer t re)
    let more ← collectMatches rest t env
    .ok (ms ++ more)

/-- Stable insertion by offset: an element is placed before the first
element with an offset not smaller than its own, so equal offsets keep
pool order (Python's `list.sort` is stable). -/
def insByStart (x : Nat × List String) : List (Nat × List String) → List (Nat × List String)
  | [] => [x]
  | y :: r => if y.1 < x.1 then y :: insByStart x r else x :: y :: r

def sortByStart (l : List (Nat × List String)) : List (Nat × List String) :=
  l.foldr insByStart []

def parse_commands_no_loops_with (ps : List (RE × Bld)) (body : List Char) (env : Env) :
    Except Err (List String) := do
  let ms ← collectMatches ps body env
  .ok ((sortByStart ms).flatMap (fun x => x.2))

/-- `parse_commands_no_loops(body, env)`. -/
def parse_commands_no_loops (body : List Char) (env : Env) : Except Err (List String) :=
  parse_commands_no_loops_with commandPatterns body env

/-! ## `extract_const_env` and `parse_commands` -/

/-- `\blet\s+([A-Za-z_][A-Za-z0-9_]*)\s*=\s*([^;]+);` -/
def letRe : RE := rcat [
  .wordB, rlit ("let"), ws1, .groupR 1 reIdent, ws0, .chR '=', ws0,
  .groupR 2 (rplus (.clsR true [CI.chC ';'])), .chR ';']

/-- One iteration of the `extract_const_env` loop: evaluate the binding's
right-hand side, record it on success, skip it on any exception. -/
def constEnvStep (body : List Char) (env : Env) (m : MatchR) : Env :=
  match safe_eval_f32 (pyStrip (matchGroup body m 2)) with
  | .ok v => envUpsert (matchGroup body m 1) v env
  | .error _ => env

/-- `extract_const_env(body)`: evaluate each binding's right-hand side;
failures skip that binding (total — the `except Exception: continue` catches
every evaluation error). -/
def extract_const_env (body : List Char) : Env :=
  (finditer body letRe).foldl (constEnvStep body) []

/-- `for\s+_\s+in\s+0\.\.([A-Za-z0-9_]+)\s*\{` -/
def loopRe : RE := rcat [
  rlit ("for"), ws1, .chR '_', ws1, rlit ("in"), ws1, .chR '0', .chR '.', .chR '.',
  .groupR 1 (rplus wordCls), ws0, .chR '{']

/-- `text.find(c, fromIdx)`. -/
def findCharAux : List Char → Char → Nat → Option Nat
  | [], _, _ => none
  | d :: rest, c, i => if d = c then some i else findCharAux rest c (i + 1)

def findCharFrom (t : List Char) (c : Char) (fromIdx : Nat) : Option Nat :=
  findCharAux (t.drop fromIdx) c fromIdx

/-- The recursive body of `parse_commands` (fuel: every recursive call is on
a strictly shorter region, so `length + 1` suffices; `findBraceMissing`
marks the unreachable `find` failure — the loop pattern's final character is
the `{` located). -/
def parse_commands_go : Nat → List Char → Env → Except Err (List String)
  | 0, _, _ => .error .fuelOut
  | fuel+1, body, env =>
    match reSearch body loopRe with
    | none => parse_commands_no_loops body env
    | some m =>
      match findCharFrom body '{' (m.stop - 1) with
      | none => .error .findBraceMissing
      | some openB =>
        match find_matching_brace_slow body openB with
        | none => .error .unbalancedSlow
        | some closeB => do
          let before := body.take m.start
          let inside := (body.drop (openB + 1)).take (closeB - openB - 1)
          let after := body.drop (closeB + 1)
          let rv ← parse_value (matchGroup body m 1) env
          let rep := pyTrunc rv
          if rep < 0 then .error (.invalidLoopRepeat rep)
          else do
            let cmdsB ← parse_commands_go fuel before env
            let cmdsI ← parse_commands_go fuel inside env
            let cmdsA ← parse_commands_go fuel after env
            .ok (cmdsB ++ (List.replicate rep.toNat cmdsI).flatten ++ cmdsA)

/-- `parse_commands(body, env=None)`. -/
def parse_commands (body : List Char) (envOpt : Option Env) : Except Err (List String) :=
  let env := match envOpt with
    | none => extract_const_env body
    | some e => e
  parse_commands_go (body.length + 1) body env

/-! ## `extract_scenarios` -/

structure Scenario where
  name : List Char
  skeleton_rel : List Char
  golden_file : List Char
  golden_is_skel : Bool
  commands : List String
  debug_slot : Option (List Char)
deriving DecidableEq, Repr, Inhabited

/-- `#\s*\[\s*test\s*\]\s*[\s\S]*?\bfn\s+(oracle_[A-Za-z0-9_]+)\s*\(` -/
def fnRe : RE := rcat [
  .chR '#', ws0, .chR '[', ws0, rlit ("test"), ws0, .chR ']', ws0,
  .starR true anyCls, .wordB, rlit ("fn"), ws1,
  .groupR 1 (.seqR (rlit ("oracle_")) (rplus wordCls)), ws0, .chR '(']

/-- `example_json_path\s*\(\s*\"([^\"]+)\"\s*(?:,\s*)?\)` -/
def skelRe : RE := rcat [
  rlit ("example_json_path"), ws0, .chR '(', ws0, .chR '"', .groupR 1 notQuoteP, .chR '"',
  ws0, ropt (rcat [.chR ',', ws0]), .chR ')']

/-- `golden_path\s*\(\s*\"([^\"]+)\"\s*(?:,\s*)?\)` -/
def goldenRe : RE := rcat [
  rlit ("golden_path"), ws0, .chR '(', ws0, .chR '"', .groupR 1 notQuoteP, .chR '"',
  ws0, ropt (rcat [.chR ',', ws0]), .chR ')']

/-- `golden_skel_path\s*\(\s*\"([^\"]+)\"\s*(?:,\s*)?\)` -/
def goldenSkelRe : RE := rcat [
  rlit ("golden_skel_path"), ws0, .chR '(', ws0, .chR '"', .groupR 1 notQuoteP, .chR '"',
  ws0, ropt (rcat [.chR ',', ws0]), .chR ')']

/-- `dump_pose\s*\(\s*&skeleton\s*,\s*[^,]+,\s*Some\s*\(\s*\"([^\"]+)\"\s*\)\s*\)` -/
def dbgRe : RE := rcat [
  rlit ("dump_pose"), ws0, .chR '(', ws0, .chR '&', rlit ("skeleton"), ws0, .chR ',', ws0,
  notCommaP, .chR ',', ws0, rlit ("Some"), ws0, .chR '(', ws0,
  .chR '"', .groupR 1 notQuoteP, .chR '"', ws0, .chR ')', ws0, .chR ')']

/-- Per-test-function extraction (the loop body of `extract_scenarios`);
`ok none` models the `continue` branches (silent skip). -/
def extractScenarioOfMatch (text : List Char) (m : MatchR) : Except Err (Option Scenario) :=
  let fnStart := m.start
  let name := matchGroup text m 1
  match findCharFrom text '{' m.stop with
  | none => .ok none
  | some braceOpen =>
    match find_matching_brace_slow text braceOpen with
    | none => .error .unbalancedSlow
    | some braceClose =>
      let body := (text.drop (braceOpen + 1)).take (braceClose - braceOpen - 1)
      let slice := (text.drop fnStart).take (braceClose - fnStart)
      let skelM : Option (List Char) :=
        match reSearch body skelRe with
        | some sm => some (matchGroup body sm 1)
        | none =>
          match reSearch slice skelRe with
          | some sm => some (matchGroup slice sm 1)
          | none => none
      match skelM with
      | none => .ok none
      | some skeletonRel =>
        let goldenM : Option (List Char × Bool) :=
          match reSearch body goldenRe with
          | some gm => some (matchGroup body gm 1, false)
          | none =>
            match reSearch body goldenSkelRe with
            | some gm => some (matchGroup body gm 1, true)
            | none => none
        match goldenM with
        | none => .ok none
        | some gf =>
          let debugSlot : Option (List Char) :=
            match reSearch body dbgRe with
            | some dm => some (matchGroup body dm 1)
            | none => none
          do
            let cmds ← parse_commands body none
            let cmds2 := match debugSlot with
              | some slot => cmds ++ ["--dump-slot-vertices", String.mk slot]
              | none => cmds
            .ok (some { name := name, skeleton_rel := skeletonRel, golden_file := gf.1,
                        golden_is_skel := gf.2, commands := cmds2, debug_slot := debugSlot })

/-- The scan phase of `extract_scenarios` (everything before the dedup). -/
def scanScenarios (text : List Char) : Except Err (List Scenario) := do
  let opts ← mapExc (extractScenarioOfMatch text) (finditer text fnRe)
  .ok (opts.filterMap id)

def scenarioKey (s : Scenario) : List Char × Bool × List Char :=
  (s.golden_file, s.golden_is_skel, s.skeleton_rel)

/-- `unique[key] = s` on a Python dict: overwrite in place, append new keys. -/
def upsertScenario (k : List Char × Bool × List Char) (v : Scenario) :
    List ((List Char × Bool × List Char) × Scenario) →
    List ((List Char × Bool × List Char) × Scenario)
  | [] => [(k, v)]
  | p :: rest => if p.1 = k then (k, v) :: rest else p :: upsertScenario k v rest

/-- One iteration of the dedup loop: `unique[key] = s`. -/
def dedupStep (acc : List ((List Char × Bool × List Char) × Scenario)) (s : Scenario) :
    List ((List Char × Bool × List Char) × Scenario) :=
  upsertScenario (scenarioKey s) s acc

/-- The dedup phase: insert every scenario under its key, return
`list(unique.values())`. -/
def dedupScenarios (ss : List Scenario) : List Scenario :=
  (ss.foldl dedupStep []).map (fun p => p.2)

/-- `extract_scenarios(text)` (the file read is the caller's concern: the
corpus text is the argument). -/
def extract_scenarios (text : List Char) : Except Err (List Scenario) := do
  let ss ← scanScenarios text
  .ok (dedupScenarios ss)

/-! ## `run_oracle`: the success criterion and persisted payload

The subprocess is an external collaborator; its observable result
(exit code, captured stdout/stderr) is the input of the model.  `json.loads`
is modelled by a strict JSON well-formedness checker (CPython defaults:
surrounding whitespace allowed, `NaN`/`Infinity`/`-Infinity` accepted, raw
control characters in strings rejected, nothing after the document). -/

structure ProcResult where
  returncode : Int
  stdout : List Char
  stderr : List Char
deriving DecidableEq, Repr

def jsonWs (c : Char) : Bool := c = ' ' ∨ c = '\t' ∨ c = '\n' ∨ c = '\r'

def jsonWsSkip (l : List Char) : List Char := l.dropWhile jsonWs

def jsonHexDigit (c : Char) : Bool :=
  isDigitChar c ∨ ('a' ≤ c ∧ c ≤ 'f') ∨ ('A' ≤ c ∧ c ≤ 'F')

/-- Consume a JSON string body after the opening quote. -/
def jsonStringRest : Nat → List Char → Option (List Char)
  | 0, _ => none
  | fuel+1, l =>
    match l with
    | [] => none
    | '"' :: r => some r
    | '\\' :: e :: r =>
      if e = '"' ∨ e = '\\' ∨ e = '/' ∨ e = 'b' ∨ e = 'f' ∨ e = 'n' ∨ e = 'r' ∨ e = 't' then
        jsonStringRest fuel r
      else if e = 'u' then
        match r with
        | a :: b :: c :: d :: r2 =>
          if jsonHexDigit a ∧ jsonHexDigit b ∧ jsonHexDigit c ∧ jsonHexDigit d then
            jsonStringRest fuel r2
          else none
        | _ => none
      else none
    | c :: r => if c.toNat < 32 then none else jsonStringRest fuel r

/-- Consume a JSON number (without sign handling for `-Infinity`, which the
caller checks first). -/
def jsonNum (l : List Char) : Option (List Char) :=
    let l1 := match l with
      | '-' :: r => r
      | _ => l
    let intRest : Option (List Char) :=
      match l1 with
      | '0' :: r => some r
      | c :: r => if '1' ≤ c ∧ c ≤ '9' then some (takeDigits r).2 else none
      | [] => none
    match intRest with
    | none => none
    | some r2 =>
      let r3 := match r2 with
        | '.' :: rf =>
          let p := takeDigits rf
          if p.1.isEmpty then none else some p.2
        | _ => some r2
      match r3 with
      | none => none
      | some r4 =>
        match r4 with
        | 'e' :: re' =>
          let re2 := match re' with
            | '+' :: rr => rr
            | '-' :: rr => rr
            | _ => re'
          let p := takeDigits re2
          if p.1.isEmpty then none else some p.2
        | 'E' :: re' =>
          let re2 := match re' with
            | '+' :: rr => rr
            | '-' :: rr => rr
            | _ => re'
          let p := takeDigits re2
          if p.1.isEmpty then none else some p.2
        | _ => some r4

def startsWithL (p l : List Char) : Bool := l.take p.length = p

inductive JMode
  | valJ
  | objBody
  | arrBody

/-- JSON value / object-members / array-items recognizer (fueled; each
recursion consumes at least one character). -/
def jsonStep : Nat → JMode → List Char → Option (List Char)
  | 0, _, _ => none
  | fuel+1, .valJ, l =>
    let l1 := jsonWsSkip l
    match l1 with
    | '{' :: r =>
      let r1 := jsonWsSkip r
      (match r1 with
       | '}' :: r2 => some r2
       | _ => jsonStep fuel .objBody r1)
    | '[' :: r =>
      let r1 := jsonWsSkip r
      (match r1 with
       | ']' :: r2 => some r2
       | _ => jsonStep fuel .arrBody r1)
    | '"' :: r => jsonStringRest (r.length + 1) r
    | _ =>
      if startsWithL (("true").toList) l1 then some (l1.drop 4)
      else if startsWithL (("false").toList) l1 then some (l1.drop 5)
      else if startsWithL (("null").toList) l1 then some (l1.drop 4)
      else if startsWithL (("NaN").toList) l1 then some (l1.drop 3)
      else if startsWithL (("Infinity").toList) l1 then some (l1.drop 8)
      else if startsWithL (("-Infinity").toList) l1 then some (l1.drop 9)
      else jsonNum l1
  | fuel+1, .objBody, l =>
    match l with
    | '"' :: r =>
      (jsonStringRest (r.length + 1) r).bind (fun r2 =>
        match jsonWsSkip r2 with
        | ':' :: r4 =>
          (jsonStep fuel .valJ r4).bind (fun r5 =>
            match jsonWsSkip r5 with
            | ',' :: r7 => jsonStep fuel .objBody (jsonWsSkip r7)
            | '}' :: r7 => some r7
            | _ => none)
        | _ => none)
    | _ => none
  | fuel+1, .arrBody, l =>
    (jsonStep fuel .valJ l).bind (fun r =>
      match jsonWsSkip r with
      | ',' :: r2 => jsonStep fuel .arrBody r2
      | ']' :: r2 => some r2
      | _ => none)

/-- `json.loads(s)` succeeds. -/
def jsonOK (s : List Char) : Bool :=
  match jsonStep (s.length + 1) .valJ s with
  | some r => jsonWsSkip r = []
  | none => false

/-- `run_oracle`, given the subprocess observation: nonzero exit raises;
otherwise the captured stdout is stripped, must parse as one JSON document,
and `out + "\n"` is returned (the caller writes it verbatim to the golden
path). -/
def run_oracle (proc : ProcResult) : Except Err (List Char) :=
  if ¬ (proc.returncode = 0) then .error .nonzeroExit
  else
    let out := pyStrip proc.stdout
    if jsonOK out then .ok (out ++ ['\n']) else .error .badJson

/-! ## Specification-side comparators

These definitions follow the spec's words (not the source) and are only
used on the right-hand side of refinement statements. -/

/-- String-aware filtering with original indices kept: the characters the
scanner may count, each with its position.  (Same string state machine,
phrased as a filter — the reference semantics the fused scanner is compared
against.) -/
def stripIdxAux : List Char → Nat → Bool → Bool → List (Nat × Char)
  | [], _, _, _ => []
  | c :: rest, i, instr, esc =>
    if instr then
      if esc then stripIdxAux rest (i + 1) true false
      else if c = '\\' then stripIdxAux rest (i + 1) true true
      else if c = '"' then stripIdxAux rest (i + 1) false false
      else stripIdxAux rest (i + 1) true false
    else
      if c = '"' then stripIdxAux rest (i + 1) true false
      else (i, c) :: stripIdxAux rest (i + 1) false false

/-- Pure depth counting over already string-filtered, index-tagged
characters: the first position where the depth returns to zero. -/
def braceScanIdx : List (Nat × Char) → Int → Option Nat
  | [], _ => none
  | (i, c) :: rest, depth =>
    if c = '{' then braceScanIdx rest (depth + 1)
    else if c = '}' then (if depth - 1 = 0 then some i else braceScanIdx rest (depth - 1))
    else braceScanIdx rest depth

/-- The matching close an exact string-aware scan finds (spec §4.1): filter
out string contents, then count delimiters. -/
def specMatchingClose (t : List Char) (open_index : Nat) : Option Nat :=
  braceScanIdx (stripIdxAux (t.drop open_index) open_index false false) 0

/-- The naive, string-unaware scan the spec contrasts with: every brace
counts. -/
def naiveScanAux : List Char → Nat → Int → Option Nat
  | [], _, _ => none
  | c :: rest, i, depth =>
    if c = '{' then naiveScanAux rest (i + 1) (depth + 1)
    else if c = '}' then (if depth - 1 = 0 then some i else naiveScanAux rest (i + 1) (depth - 1))
    else naiveScanAux rest (i + 1) depth

def naiveMatchingClose (t : List Char) (open_index : Nat) : Option Nat :=
  naiveScanAux (t.drop open_index) open_index 0

/-! # Theorems -/

/-! ## Claim C1: end-to-end compilation of the dt / set-animation / update
body -/

/-- The C1 test body:
`let dt = 1.0 / 60.0; state.set_animation(0, "run", true); state.update(dt);` -/
def c1Body : List Char :=
  ("let dt = 1.0 / 60.0;\nstate.set_animation(0, \"run\", true);\nstate.update(dt);").toList

/-- Claim C1, counterexample: the pipeline does NOT produce the claimed token
list — Python serializes `1.0/60.0` as `repr(float(...))`, the shortest
round-tripping decimal `"0.016666666666666666"`, not the 9-digit
`"0.016666667"` the claim states. -/
theorem claim_C1_counterexample :
    parse_commands c1Body none ≠
      Except.ok ["--set", "0", "run", "1", "--physics", "none", "--step", "0.016666667"] := by
  decide

/-- Claim C1, amended: same pipeline, with the step value serialized as the
full 17-digit shortest round-trip repr `"0.016666666666666666"`. -/
theorem claim_C1_amended :
    parse_commands c1Body none =
      Except.ok ["--set", "0", "run", "1", "--physics", "none", "--step",
        "0.016666666666666666"] := by
  decide

/-! ## Claim C4: correctness of `find_matching_brace_slow` -/

theorem fmbsAux_eq_spec (l : List Char) :
    ∀ (i : Nat) (depth : Int) (instr esc : Bool),
      fmbsAux l i depth instr esc = braceScanIdx (stripIdxAux l i instr esc) depth := by
  induction l with
  | nil => intro i depth instr esc; rfl
  | cons c rest ih =>
    intro i depth instr esc
    cases instr with
    | true =>
      cases esc with
      | true => simpa [fmbsAux, stripIdxAux] using ih (i + 1) depth true false
      | false =>
        by_cases hb : c = '\\'
        · simpa [fmbsAux, stripIdxAux, hb] using ih (i + 1) depth true true
        · by_cases hq : c = '"'
          · simpa [fmbsAux, stripIdxAux, hb, hq] using ih (i + 1) depth false false
          · simpa [fmbsAux, stripIdxAux, hb, hq] using ih (i + 1) depth true false
    | false =>
      by_cases hq : c = '"'
      · simpa [fmbsAux, stripIdxAux, hq] using ih (i + 1) depth true false
      · by_cases ho : c = '{'
        · simpa [fmbsAux, stripIdxAux, braceScanIdx, hq, ho] using
            ih (i + 1) (depth + 1) false false
        · by_cases hc : c = '}'
          · by_cases hz : depth - 1 = 0
            · simp [fmbsAux, stripIdxAux, braceScanIdx, hq, ho, hc, hz]
            · simpa [fmbsAux, stripIdxAux, braceScanIdx, hq, ho, hc, hz] using
                ih (i + 1) (depth - 1) false false
          · simpa [fmbsAux, stripIdxAux, braceScanIdx, hq, ho, hc] using
              ih (i + 1) depth false false

/-- A small text with an unmatched `{` inside a quoted literal:
`{ "a{" } }` — the string-aware close is index 7; a naive count pairs the
outer brace with index 9. -/
def c4Text : List Char := ("\x7b \"a\x7b\" \x7d \x7d").toList

/-- A text exhausted before the depth returns to zero. -/
def c4Unbalanced : List Char := ("\x7b \"").toList

/-- Claim C4: `find_matching_brace_slow` equals the exact string-aware scan
(filter out quoted-string contents with backslash escapes, then count
delimiters; `none` models the unbalanced-delimiters error raised when the
text is exhausted first).  On the example with a quoted `{` it returns the
string-aware close 7, not the naive close 9, and on a text ending inside a
string it reports unbalanced. -/
theorem claim_C4_scanner_correct :
    (∀ (t : List Char) (open_index : Nat),
        find_matching_brace_slow t open_index = specMatchingClose t open_index) ∧
      find_matching_brace_slow c4Text 0 = some 7 ∧
      naiveMatchingClose c4Text 0 = some 9 ∧
      find_matching_brace_slow c4Unbalanced 0 = none := by
  refine ⟨fun t open_index => ?_, by decide, by decide, by decide⟩
  exact fmbsAux_eq_spec (t.drop open_index) open_index 0 false false

/-! ## Claim C6: evaluator error behavior -/

/-- The claim's supported grammar (spec §4.2): numeric literals, named
identifiers resolvable in the environment, unary plus/minus, binary
`+ - * /`. -/
inductive SpecSupported (env : Env) : PyExpr → Prop
  | numI (n : Int) : SpecSupported env (.constE (.intC n))
  | numF (f : PyFloat) : SpecSupported env (.constE (.floatC f))
  | nameR (s : List Char) (v : PyFloat) (h : envLookup env s = some v) :
      SpecSupported env (.nameE s)
  | unary (op : UOp) (e : PyExpr) (h : SpecSupported env e) :
      SpecSupported env (.unaryE op e)
  | bin (a : PyExpr) (op : BOp) (b : PyExpr) (ha : SpecSupported env a)
      (hb : SpecSupported env b) : SpecSupported env (.binE a op b)

def c6Env : Env := [(("dt").toList, mkB64 1 1)]

/-- Claim C6, counterexample: `dt + 1` with `dt` bound in the environment is
built only from the claim's supported forms (a resolvable identifier, a
numeric literal, binary `+`), yet the code rejects it with the
unsupported-expression error: `eval_node` has no `ast.Name` case, so
identifiers are resolved only when the whole token is a bare identifier. -/
theorem claim_C6_counterexample :
    pyParseExpr (("dt + 1").toList) =
      .ok (.binE (.nameE (("dt").toList)) .add (.constE (.intC 1))) ∧
      SpecSupported c6Env (.binE (.nameE (("dt").toList)) .add (.constE (.intC 1))) ∧
      parse_value (("dt + 1").toList) c6Env = .error .unsupportedExpr := by
  refine ⟨rfl, ?_, by decide⟩
  exact .bin _ _ _ (.nameR _ (mkB64 1 1) rfl) (.numI 1)

/-- AST heads `eval_node` rejects outright: names, calls, and non-numeric
constants. -/
def evalRejectsHead : PyExpr → Bool
  | .nameE _ => true
  | .callE _ _ => true
  | .constE c => (constNum c).isNone
  | _ => false

/-- Claim C6, amended: identifiers are resolved via the environment only when
the entire stripped token is a bare identifier (an unresolved one failing
with the unknown-variable error); inside any compound expression an
identifier — like every AST head other than a numeric constant (Python
bools included), unary `±` or binary `+ - * /` — is rejected with the
unsupported-expression error; in particular `foo(1)` and `dt + 1` fail with
unsupported-expression and `unknown_name` with unknown-variable. -/
theorem claim_C6_amended :
    (∀ (env : Env) (tok : List Char) (v : PyFloat),
        fullmatchIdent (pyStrip tok) = true → envLookup env (pyStrip tok) = some v →
        parse_value tok env = .ok v) ∧
      (∀ (env : Env) (tok : List Char),
        fullmatchIdent (pyStrip tok) = true → envLookup env (pyStrip tok) = none →
        parse_value tok env = .error (.unknownVar (pyStrip tok))) ∧
      (∀ e : PyExpr, evalRejectsHead e = true → evalNode e = .error .unsupportedExpr) ∧
      parse_value (("unknown_name").toList) [] =
        .error (.unknownVar (("unknown_name").toList)) ∧
      parse_value (("foo(1)").toList) [] = .error .unsupportedExpr ∧
      parse_value (("dt + 1").toList) c6Env = .error .unsupportedExpr := by
  refine ⟨?_, ?_, ?_, by decide, by decide, by decide⟩
  · intro env tok v h1 h2
    simp [parse_value, h1, h2]
  · intro env tok h1 h2
    simp [parse_value, h1, h2]
  · intro e he
    match e with
    | .nameE s => rfl
    | .callE f args => rfl
    | .constE c =>
      cases hc : constNum c with
      | none => simp [evalNode, hc]
      | some v => simp [evalRejectsHead, hc] at he
    | .unaryE op e2 => simp [evalRejectsHead] at he
    | .binE a op b => simp [evalRejectsHead] at he

/-- Claim C6 witness: the amended theorem applied at concrete inputs. -/
theorem claim_C6_witness :
    parse_value (("  dt ").toList) [(("dt").toList, mkB64 1 2)] = .ok (mkB64 1 2) ∧
      parse_value (("zz").toList) [(("dt").toList, mkB64 1 2)] =
        .error (.unknownVar (("zz").toList)) ∧
      evalNode (.callE (.nameE (("foo").toList)) [.constE (.intC 1)]) =
        .error .unsupportedExpr :=
  ⟨claim_C6_amended.1 _ _ _ (by decide) (by decide),
   claim_C6_amended.2.1 _ _ (by decide) (by decide),
   claim_C6_amended.2.2.1 _ (by decide)⟩

/-! ## Claim C8: oracle invocation success criterion and payload -/

def c8Proc : ProcResult := { returncode := 0, stdout := ("  \x7b\x7d  ").toList, stderr := [] }

/-- Claim C8, counterexample: on stdout `"  {}  "` (exit 0, valid JSON) the
persisted payload is the stripped `"{}\n"`, which is not the captured
standard output verbatim with a trailing newline. -/
theorem claim_C8_counterexample :
    run_oracle c8Proc = .ok (("\x7b\x7d\n").toList) ∧
      ¬ (("\x7b\x7d\n").toList = c8Proc.stdout ++ ['\n']) := by
  constructor
  · decide
  · decide

/-- Claim C8, amended: an invocation succeeds exactly when the exit code is
zero and the whitespace-stripped captured stdout parses as one well-formed
JSON document; the persisted payload is that stripped stdout with a trailing
newline appended; nonzero exit or malformed output raises the per-scenario
failure. -/
theorem claim_C8_amended :
    ∀ proc : ProcResult,
      (¬ proc.returncode = 0 → run_oracle proc = .error .nonzeroExit) ∧
        (proc.returncode = 0 → jsonOK (pyStrip proc.stdout) = true →
          run_oracle proc = .ok (pyStrip proc.stdout ++ ['\n'])) ∧
        (proc.returncode = 0 → jsonOK (pyStrip proc.stdout) = false →
          run_oracle proc = .error .badJson) ∧
        ((∃ out, run_oracle proc = .ok out) ↔
          (proc.returncode = 0 ∧ jsonOK (pyStrip proc.stdout) = true)) := by
  intro proc
  refine ⟨fun hc => by simp [run_oracle, hc], fun h0 hj => by simp [run_oracle, h0, hj],
    fun h0 hj => by simp [run_oracle, h0, hj], ?_⟩
  constructor
  · rintro ⟨out, hout⟩
    by_cases h0 : proc.returncode = 0
    · cases hj : jsonOK (pyStrip proc.stdout) with
      | true => exact ⟨h0, rfl⟩
      | false => simp [run_oracle, h0, hj] at hout
    · simp [run_oracle, h0] at hout
  · rintro ⟨h0, hj⟩
    exact ⟨pyStrip proc.stdout ++ ['\n'], by simp [run_oracle, h0, hj]⟩

def c8ProcFail : ProcResult := { returncode := 2, stdout := ("x").toList, stderr := [] }

/-- Claim C8 witness: the amended theorem applied at a succeeding and a
failing invocation. -/
theorem claim_C8_witness :
    run_oracle c8Proc = .ok (pyStrip c8Proc.stdout ++ ['\n']) ∧
      run_oracle c8ProcFail = .error .nonzeroExit :=
  ⟨(claim_C8_amended c8Proc).2.1 rfl (by decide),
   (claim_C8_amended c8ProcFail).1 (by decide)⟩

/-! ## Claim C9: the constant environment records the last successfully
evaluated binding of each name -/

/-- Selector for bindings of `name` whose right-hand side evaluates
successfully (spec-side description of one `let` match). -/
def letBindingSel (body name : List Char) (m : MatchR) : Option PyFloat :=
  if matchGroup body m 1 = name then (safe_eval_f32 (pyStrip (matchGroup body m 2))).toOption
  else none

theorem envLookup_upsert (k : List Char) (v : PyFloat) (env : Env) (name : List Char) :
    envLookup (envUpsert k v env) name = if k = name then some v else envLookup env name := by
  induction env with
  | nil =>
    by_cases h : k = name <;> simp [envUpsert, envLookup, List.find?, h]
  | cons p rest ih =>
    by_cases hp : p.1 = k
    · rw [show envUpsert k v (p :: rest) = (k, v) :: rest from by simp [envUpsert, hp]]
      by_cases h : k = name
      · simp [envLookup, List.find?, h]
      · have hpn : ¬ p.1 = name := fun hn => h (hp.symm.trans hn)
        simp [envLookup, List.find?, h, hpn]
    · rw [show envUpsert k v (p :: rest) = p :: envUpsert k v rest from by simp [envUpsert, hp]]
      by_cases h : p.1 = name
      · have hk : ¬ k = name := fun he => hp (h.trans he.symm)
        simp [envLookup, List.find?, h, hk]
      · simpa [envLookup, List.find?, h] using ih

theorem getLast?_cons_or {α : Type} (a : α) (l : List α) :
    (a :: l).getLast? = Option.or l.getLast? (some a) := by
  cases l with
  | nil => rfl
  | cons b t =>
    rw [List.getLast?_cons_cons]
    cases hg : (b :: t).getLast? with
    | none =>
      exfalso
      have := List.getLast?_isSome.mpr (List.cons_ne_nil b t)
      rw [hg] at this
      cases this
    | some x => rfl

theorem constEnv_fold (body name : List Char) :
    ∀ (ms : List MatchR) (env0 : Env),
      envLookup (ms.foldl (constEnvStep body) env0) name
        = Option.or ((ms.filterMap (letBindingSel body name)).getLast?) (envLookup env0 name) := by
  intro ms
  induction ms with
  | nil => intro env0; rfl
  | cons m rest ih =>
    intro env0
    have step1 : envLookup (constEnvStep body env0 m) name
        = Option.or (letBindingSel body name m) (envLookup env0 name) := by
      unfold constEnvStep letBindingSel
      cases hev : safe_eval_f32 (pyStrip (matchGroup body m 2)) with
      | ok v =>
        rw [envLookup_upsert]
        by_cases h : matchGroup body m 1 = name
        · simp only [if_pos h]
          rfl
        · simp only [if_neg h]
          rfl
      | error e =>
        by_cases h : matchGroup body m 1 = name
        · simp only [if_pos h]
          rfl
        · simp only [if_neg h]
          rfl
    calc envLookup ((m :: rest).foldl (constEnvStep body) env0) name
        = envLookup (rest.foldl (constEnvStep body) (constEnvStep body env0 m)) name := rfl
      _ = Option.or ((rest.filterMap (letBindingSel body name)).getLast?)
            (envLookup (constEnvStep body env0 m) name) := ih _
      _ = Option.or ((rest.filterMap (letBindingSel body name)).getLast?)
            (Option.or (letBindingSel body name m) (envLookup env0 name)) := by rw [step1]
      _ = Option.or (((m :: rest).filterMap (letBindingSel body name)).getLast?)
            (envLookup env0 name) := by
          cases hm : letBindingSel body name m with
          | none =>
            rw [List.filterMap_cons, hm]
            rfl
          | some v => rw [List.filterMap_cons, hm, getLast?_cons_or, Option.or_assoc]

/-- Claim C9: `extract_const_env` is total by construction (every evaluation
failure is caught and skips only that binding), and each name's entry is the
value of the textually last `let name = expr;` whose right-hand side
evaluates successfully — later unevaluable bindings leave earlier recorded
values intact (they contribute `none` to the selector and so cannot displace
the last success). -/
theorem claim_C9_const_env :
    ∀ (body name : List Char),
      envLookup (extract_const_env body) name
        = ((finditer body letRe).filterMap (letBindingSel body name)).getLast? := by
  intro body name
  calc envLookup (extract_const_env body) name
      = Option.or (((finditer body letRe).filterMap (letBindingSel body name)).getLast?)
          (envLookup [] name) := constEnv_fold body name (finditer body letRe) []
    _ = ((finditer body letRe).filterMap (letBindingSel body name)).getLast? := by
        cases hx : ((finditer body letRe).filterMap (letBindingSel body name)).getLast? <;> rfl

/-! ## Claim C7: scenario deduplication keeps the later definition per key -/

abbrev SKey := List Char × Bool × List Char

abbrev SAssoc := List (SKey × Scenario)

def assocFind (l : SAssoc) (k : SKey) : Option Scenario :=
  (l.find? (fun p => p.1 = k)).map (fun p => p.2)

theorem assocFind_upsert (k : SKey) (v : Scenario) (acc : SAssoc) (k2 : SKey) :
    assocFind (upsertScenario k v acc) k2 = if k = k2 then some v else assocFind acc k2 := by
  induction acc with
  | nil =>
    by_cases h : k = k2 <;> simp [upsertScenario, assocFind, List.find?, h]
  | cons p rest ih =>
    by_cases hp : p.1 = k
    · rw [show upsertScenario k v (p :: rest) = (k, v) :: rest from by simp [upsertScenario, hp]]
      by_cases h : k = k2
      · simp [assocFind, List.find?, h]
      · have hpn : ¬ p.1 = k2 := fun hn => h (hp.symm.trans hn)
        simp [assocFind, List.find?, h, hpn]
    · rw [show upsertScenario k v (p :: rest) = p :: upsertScenario k v rest from by
        simp [upsertScenario, hp]]
      by_cases h : p.1 = k2
      · have hk : ¬ k = k2 := fun he => hp (h.trans he.symm)
        simp [assocFind, List.find?, h, hk]
      · simpa [assocFind, List.find?, h] using ih

theorem assocFind_dedupFold (k : SKey) :
    ∀ (ss : List Scenario) (acc : SAssoc),
      assocFind (ss.foldl dedupStep acc) k
        = Option.or ((ss.filter (fun u => scenarioKey u = k)).getLast?) (assocFind acc k) := by
  intro ss
  induction ss with
  | nil => intro acc; rfl
  | cons s rest ih =>
    intro acc
    calc assocFind ((s :: rest).foldl dedupStep acc) k
        = assocFind (rest.foldl dedupStep (dedupStep acc s)) k := rfl
      _ = Option.or ((rest.filter (fun u => scenarioKey u = k)).getLast?)
            (assocFind (dedupStep acc s) k) := ih _
      _ = Option.or (((s :: rest).filter (fun u => scenarioKey u = k)).getLast?)
            (assocFind acc k) := by
          rw [show assocFind (dedupStep acc s) k
              = if scenarioKey s = k then some s else assocFind acc k from
                assocFind_upsert _ _ _ _]
          by_cases h : scenarioKey s = k
          · rw [if_pos h, List.filter_cons_of_pos (by simpa using h), getLast?_cons_or,
              Option.or_assoc]
            rfl
          · rw [if_neg h, List.filter_cons_of_neg (by simpa using h)]

theorem mem_upsertScenario (k : SKey) (v : Scenario) (p : SKey × Scenario) :
    ∀ acc : SAssoc, p ∈ upsertScenario k v acc → p = (k, v) ∨ p ∈ acc := by
  intro acc
  induction acc with
  | nil => intro h; simpa [upsertScenario] using h
  | cons q rest ih =>
    intro h
    by_cases hq : q.1 = k
    · rw [show upsertScenario k v (q :: rest) = (k, v) :: rest from by
        simp [upsertScenario, hq]] at h
      rcases List.mem_cons.mp h with h1 | h1
      · exact Or.inl h1
      · exact Or.inr (List.mem_cons_of_mem q h1)
    · rw [show upsertScenario k v (q :: rest) = q :: upsertScenario k v rest from by
        simp [upsertScenario, hq]] at h
      rcases List.mem_cons.mp h with h1 | h1
      · exact Or.inr (h1 ▸ List.mem_cons_self q rest)
      · rcases ih h1 with h2 | h2
        · exact Or.inl h2
        · exact Or.inr (List.mem_cons_of_mem q h2)

theorem dedupFold_coherent :
    ∀ (ss : List Scenario) (acc : SAssoc),
      (∀ p ∈ acc, p.1 = scenarioKey p.2) →
      ∀ p ∈ ss.foldl dedupStep acc, p.1 = scenarioKey p.2 := by
  intro ss
  induction ss with
  | nil => intro acc hacc p hp; exact hacc p hp
  | cons s rest ih =>
    intro acc hacc p hp
    refine ih (dedupStep acc s) ?_ p hp
    intro q hq
    rcases mem_upsertScenario _ _ q acc hq with h1 | h1
    · rw [h1]
    · exact hacc q h1

theorem keys_upsertScenario (k : SKey) (v : Scenario) :
    ∀ acc : SAssoc,
      (upsertScenario k v acc).map Prod.fst
        = if k ∈ acc.map Prod.fst then acc.map Prod.fst else acc.map Prod.fst ++ [k] := by
  intro acc
  induction acc with
  | nil => simp [upsertScenario]
  | cons q rest ih =>
    by_cases hq : q.1 = k
    · rw [show upsertScenario k v (q :: rest) = (k, v) :: rest from by simp [upsertScenario, hq]]
      simp [hq]
    · rw [show upsertScenario k v (q :: rest) = q :: upsertScenario k v rest from by
        simp [upsertScenario, hq]]
      have hne : ¬ k = q.1 := fun he => hq he.symm
      by_cases hin : k ∈ rest.map Prod.fst
      · simp [List.map_cons, ih, hin, hne]
      · simp [List.map_cons, ih, hin, hne]

theorem dedupFold_keys_nodup :
    ∀ (ss : List Scenario) (acc : SAssoc),
      (acc.map Prod.fst).Nodup → ((ss.foldl dedupStep acc).map Prod.fst).Nodup := by
  intro ss
  induction ss with
  | nil => intro acc h; exact h
  | cons s rest ih =>
    intro acc hacc
    refine ih (dedupStep acc s) ?_
    rw [show (dedupStep acc s).map Prod.fst
        = if scenarioKey s ∈ acc.map Prod.fst then acc.map Prod.fst
          else acc.map Prod.fst ++ [scenarioKey s] from keys_upsertScenario _ _ _]
    by_cases hin : scenarioKey s ∈ acc.map Prod.fst
    · rwa [if_pos hin]
    · rw [if_neg hin]
      refine List.nodup_append.mpr ⟨hacc, List.nodup_singleton _, ?_⟩
      intro a ha hb
      rw [List.mem_singleton.mp hb] at ha
      exact hin ha

theorem find?_of_mem_nodupKeys (l : SAssoc) (p : SKey × Scenario)
    (hnd : (l.map Prod.fst).Nodup) (hp : p ∈ l) :
    l.find? (fun q => q.1 = p.1) = some p := by
  induction l with
  | nil => cases hp
  | cons q rest ih =>
    rcases List.mem_cons.mp hp with h1 | h1
    · rw [h1]
      simp [List.find?]
    · have hq : ¬ (q.1 = p.1) := by
        intro he
        have : p.1 ∈ rest.map Prod.fst := List.mem_map.mpr ⟨p, h1, rfl⟩
        rw [List.map_cons] at hnd
        exact (List.nodup_cons.mp hnd).1 (he ▸ this)
      have hrest : (rest.map Prod.fst).Nodup := by
        rw [List.map_cons] at hnd
        exact (List.nodup_cons.mp hnd).2
      rw [List.find?_cons_of_neg _ (by simpa using hq)]
      exact ih hrest h1

/-- Claim C7: `extract_scenarios` is the scan followed by the key-indexed
dedup, and the dedup keeps, for each `(golden path, golden kind, skeleton
path)` key, exactly the last-scanned scenario with that key: membership in
the output is equivalent to being the last scenario of one's key (so two
definitions with the same golden path and kind but different skeleton paths
both survive, while identical keys collapse to the later definition with its
compiled tokens); output keys are pairwise distinct, and a key occurs in the
output exactly when it occurs in the scan. -/
theorem claim_C7_dedup :
    ∀ (text : List Char) (ss : List Scenario),
      scanScenarios text = .ok ss →
      extract_scenarios text = .ok (dedupScenarios ss) ∧
        (∀ s : Scenario, s ∈ dedupScenarios ss ↔
          (ss.filter (fun u => scenarioKey u = scenarioKey s)).getLast? = some s) ∧
        ((dedupScenarios ss).map scenarioKey).Nodup ∧
        (∀ k : SKey, (∃ s, s ∈ ss ∧ scenarioKey s = k) ↔
          (∃ s, s ∈ dedupScenarios ss ∧ scenarioKey s = k)) := by
  intro text ss hscan
  have hfind : ∀ k, assocFind (ss.foldl dedupStep []) k
      = (ss.filter (fun u => scenarioKey u = k)).getLast? := by
    intro k
    rw [assocFind_dedupFold k ss []]
    cases hx : (ss.filter (fun u => scenarioKey u = k)).getLast? <;> rfl
  have hnd : ((ss.foldl dedupStep []).map Prod.fst).Nodup :=
    dedupFold_keys_nodup ss [] (by simp)
  have hco : ∀ p ∈ ss.foldl dedupStep [], p.1 = scenarioKey p.2 :=
    dedupFold_coherent ss [] (by intro p hp; cases hp)
  have hmem : ∀ s : Scenario, s ∈ dedupScenarios ss ↔
      (ss.filter (fun u => scenarioKey u = scenarioKey s)).getLast? = some s := by
    intro s
    constructor
    · intro hs
      rcases List.mem_map.mp hs with ⟨p, hpmem, hps⟩
      have hk : p.1 = scenarioKey s := by rw [hco p hpmem, hps]
      have hfd : (ss.foldl dedupStep []).find? (fun q => q.1 = p.1) = some p :=
        find?_of_mem_nodupKeys _ p hnd hpmem
      have : assocFind (ss.foldl dedupStep []) (scenarioKey s) = some s := by
        rw [assocFind, ← hk, hfd]
        simp [hps]
      rw [← hfind (scenarioKey s)]
      exact this
    · intro hlast
      have hfd : assocFind (ss.foldl dedupStep []) (scenarioKey s) = some s := by
        rw [hfind (scenarioKey s)]; exact hlast
      rw [assocFind] at hfd
      cases hq : (ss.foldl dedupStep []).find? (fun q => q.1 = scenarioKey s) with
      | none => rw [hq] at hfd; cases hfd
      | some p =>
        rw [hq] at hfd
        have hps : p.2 = s := by simpa using hfd
        exact List.mem_map.mpr ⟨p, List.mem_of_find?_eq_some hq, hps⟩
  refine ⟨?_, hmem, ?_, ?_⟩
  · rw [extract_scenarios, hscan]
    rfl
  · have : (dedupScenarios ss).map scenarioKey = (ss.foldl dedupStep []).map Prod.fst := by
      rw [dedupScenarios, List.map_map]
      refine List.map_congr_left ?_
      intro p hp
      exact (hco p hp).symm
    rw [this]
    exact hnd
  · intro k
    constructor
    · rintro ⟨s, hs, hks⟩
      have hne : ss.filter (fun u => scenarioKey u = k) ≠ [] := by
        intro hnil
        have : s ∈ ss.filter (fun u => scenarioKey u = k) :=
          List.mem_filter.mpr ⟨hs, by simpa using hks⟩
        rw [hnil] at this
        cases this
      rcases Option.isSome_iff_exists.mp (List.getLast?_isSome.mpr hne) with ⟨t, ht⟩
      have htf : t ∈ ss.filter (fun u => scenarioKey u = k) := List.mem_of_mem_getLast? ht
      have hkt : scenarioKey t = k := by simpa using (List.mem_filter.mp htf).2
      refine ⟨t, (hmem t).mpr ?_, hkt⟩
      rw [hkt]
      exact ht
    · rintro ⟨s, hs, hks⟩
      have hlast := (hmem s).mp hs
      have hsf : s ∈ ss.filter (fun u => scenarioKey u = scenarioKey s) :=
        List.mem_of_mem_getLast? hlast
      exact ⟨s, (List.mem_filter.mp hsf).1, hks⟩

/-- Witness corpus for C7: `oracle_first` and `oracle_second` share the same
(golden, kind, skeleton) key; `oracle_third` has the same golden path and
kind but a different skeleton path. -/
def c7Text : List Char :=
  ("#[test]\nfn oracle_first() \x7b\n  let p = example_json_path(\"a/s1.json\");\n  let g = golden_path(\"g.json\");\n  state.update(0.25);\n\x7d\n#[test]\nfn oracle_second() \x7b\n  let p = example_json_path(\"a/s1.json\");\n  let g = golden_path(\"g.json\");\n  state.update(0.5);\n\x7d\n#[test]\nfn oracle_third() \x7b\n  let p = example_json_path(\"b/s2.json\");\n  let g = golden_path(\"g.json\");\n  state.update(0.25);\n\x7d\n").toList

def c7First : Scenario :=
  { name := ("oracle_first").toList, skeleton_rel := ("a/s1.json").toList,
    golden_file := ("g.json").toList, golden_is_skel := false,
    commands := ["--physics", "none", "--step", "0.25"], debug_slot := none }

def c7Second : Scenario :=
  { name := ("oracle_second").toList, skeleton_rel := ("a/s1.json").toList,
    golden_file := ("g.json").toList, golden_is_skel := false,
    commands := ["--physics", "none", "--step", "0.5"], debug_slot := none }

def c7Third : Scenario :=
  { name := ("oracle_third").toList, skeleton_rel := ("b/s2.json").toList,
    golden_file := ("g.json").toList, golden_is_skel := false,
    commands := ["--physics", "none", "--step", "0.25"], debug_slot := none }

/-- Claim C7 witness: on the concrete corpus the scan yields the three
scenarios in order; the dedup output retains `oracle_second` (the later of
the identical-key pair, with its own compiled tokens) and `oracle_third`
(distinct skeleton path), and drops `oracle_first`. -/
theorem claim_C7_witness :
    scanScenarios c7Text = .ok [c7First, c7Second, c7Third] ∧
      extract_scenarios c7Text = .ok (dedupScenarios [c7First, c7Second, c7Third]) ∧
      c7Second ∈ dedupScenarios [c7First, c7Second, c7Third] ∧
      c7Third ∈ dedupScenarios [c7First, c7Second, c7Third] ∧
      ¬ c7First ∈ dedupScenarios [c7First, c7Second, c7Third] := by
  have hscan : scanScenarios c7Text = .ok [c7First, c7Second, c7Third] := by decide
  have h := claim_C7_dedup c7Text [c7First, c7Second, c7Third] hscan
  refine ⟨hscan, h.1, (h.2.1 c7Second).mpr (by decide), (h.2.1 c7Third).mpr (by decide),
    fun hm => ?_⟩
  have := (h.2.1 c7First).mp hm
  revert this
  decide

/-! ## Claim C10: tests without a skeleton or golden reference are silently
skipped -/

/-- Claim C10: for a test-function match whose body (and fallback function
slice) contains no skeleton-path reference, or whose body contains no
golden-path reference of either kind, the per-function extraction returns
`ok none` — no scenario and no error; and every scenario the scan returns
comes from some function match whose extraction returned `ok (some _)`. -/
theorem claim_C10_silent_skip :
    ∀ (text : List Char) (m : MatchR) (bo bc : Nat),
      (findCharFrom text '{' m.stop = some bo →
        find_matching_brace_slow text bo = some bc →
        reSearch ((text.drop (bo + 1)).take (bc - bo - 1)) skelRe = none →
        reSearch ((text.drop m.start).take (bc - m.start)) skelRe = none →
        extractScenarioOfMatch text m = .ok none) ∧
      (findCharFrom text '{' m.stop = some bo →
        find_matching_brace_slow text bo = some bc →
        reSearch ((text.drop (bo + 1)).take (bc - bo - 1)) goldenRe = none →
        reSearch ((text.drop (bo + 1)).take (bc - bo - 1)) goldenSkelRe = none →
        extractScenarioOfMatch text m = .ok none) ∧
      (∀ ss, scanScenarios text = .ok ss → ∀ s ∈ ss,
        ∃ m2 ∈ finditer text fnRe, extractScenarioOfMatch text m2 = .ok (some s)) := by
  intro text m bo bc
  refine ⟨fun hbo hbc hs1 hs2 => ?_, fun hbo hbc hg1 hg2 => ?_, fun ss hss s hs => ?_⟩
  · simp only [extractScenarioOfMatch, hbo, hbc, hs1, hs2]
  · simp only [extractScenarioOfMatch, hbo, hbc]
    cases hsk : reSearch ((text.drop (bo + 1)).take (bc - bo - 1)) skelRe with
    | none =>
      cases hsl : reSearch ((text.drop m.start).take (bc - m.start)) skelRe with
      | none => simp only [hsk, hsl]
      | some sm => simp only [hsk, hsl, hg1, hg2]
    | some sm => simp only [hsk, hg1, hg2]
  · have hgen : ∀ (ms : List MatchR) (opts : List (Option Scenario)),
        mapExc (extractScenarioOfMatch text) ms = .ok opts →
        ∀ u ∈ opts.filterMap id,
          ∃ m2 ∈ ms, extractScenarioOfMatch text m2 = .ok (some u) := by
      intro ms
      induction ms with
      | nil =>
        intro opts hm u hu
        cases hm
        cases hu
      | cons a rest ih =>
        intro opts hm u hu
        cases ha : extractScenarioOfMatch text a with
        | error e => rw [mapExc, ha] at hm; cases hm
        | ok b =>
          cases hrest : mapExc (extractScenarioOfMatch text) rest with
          | error e => rw [mapExc, ha, hrest] at hm; cases hm
          | ok bs =>
            rw [mapExc, ha, hrest] at hm
            cases hm
            cases b with
            | none =>
              rcases ih bs hrest u (by simpa using hu) with ⟨m2, hm2, hok⟩
              exact ⟨m2, List.mem_cons_of_mem a hm2, hok⟩
            | some v =>
              have hu2 : u = v ∨ some u ∈ bs := by simpa using hu
              rcases hu2 with h1 | h1
              · exact ⟨a, List.mem_cons_self a rest, by rw [ha, h1]⟩
              · have h3 : u ∈ bs.filterMap id := by simpa using h1
                rcases ih bs hrest u h3 with ⟨m2, hm2, hok⟩
                exact ⟨m2, List.mem_cons_of_mem a hm2, hok⟩
    rw [scanScenarios] at hss
    cases hmx : mapExc (extractScenarioOfMatch text) (finditer text fnRe) with
    | error e => rw [hmx] at hss; cases hss
    | ok opts =>
      rw [hmx] at hss
      cases hss
      exact hgen (finditer text fnRe) opts hmx s hs

/-- Witness text: a test with a golden path but no skeleton reference. -/
def c10NoSkel : List Char :=
  ("#[test]\nfn oracle_noskel() \x7b\n  let g = golden_path(\"walk.json\");\n  state.update(0.25);\n\x7d\n").toList

/-- Witness text: a test with a skeleton reference but no golden path. -/
def c10NoGold : List Char :=
  ("#[test]\nfn oracle_nogold() \x7b\n  let p = example_json_path(\"a/b.json\");\n  state.update(0.25);\n\x7d\n").toList

/-- Claim C10 witness: the theorem applied to both corpora's (only) test
function match — each extraction returns `ok none`, and the corresponding
scans return no scenarios and no error. -/
theorem claim_C10_witness :
    extractScenarioOfMatch c10NoSkel { start := 0, stop := 25, caps := [(1, 11, 24)] } =
        .ok none ∧
      extractScenarioOfMatch c10NoGold { start := 0, stop := 25, caps := [(1, 11, 24)] } =
        .ok none ∧
      scanScenarios c10NoSkel = .ok [] ∧
      scanScenarios c10NoGold = .ok [] :=
  ⟨(claim_C10_silent_skip c10NoSkel { start := 0, stop := 25, caps := [(1, 11, 24)] }
      27 87).1 (by decide) (by decide) (by decide) (by decide),
   (claim_C10_silent_skip c10NoGold { start := 0, stop := 25, caps := [(1, 11, 24)] }
      27 92).2.1 (by decide) (by decide) (by decide) (by decide),
   by decide, by decide⟩

/-! ## Engine bounds lemmas (positions produced by the matcher stay inside
the text and never move left) -/

theorem mem_of_head?_eq_some {α : Type} {l : List α} {x : α} (h : l.head? = some x) : x ∈ l := by
  cases l with
  | nil => cases h
  | cons b t =>
    have hb : b = x := by simpa using h
    rw [← hb]
    exact List.mem_cons_self b t

theorem starLoop_bounds (len : Nat) (f : Nat → Caps → List (Nat × Caps)) (lz : Bool)
    (hf : ∀ (q : Nat) (cp : Caps) (r : Nat × Caps), q ≤ len → r ∈ f q cp → q ≤ r.1 ∧ r.1 ≤ len) :
    ∀ (fuel q : Nat) (cp : Caps) (r : Nat × Caps),
      q ≤ len → r ∈ starLoop f lz fuel q cp → q ≤ r.1 ∧ r.1 ≤ len := by
  intro fuel
  induction fuel with
  | zero =>
    intro q cp r hq hr
    have hr2 : r = (q, cp) := by simpa [starLoop] using hr
    rw [hr2]
    exact ⟨le_refl q, hq⟩
  | succ fu ih =>
    intro q cp r hq hr
    simp only [starLoop] at hr
    have hsplit : r = (q, cp) ∨
        r ∈ ((f q cp).filter (fun s => q < s.1)).flatMap (fun s => starLoop f lz fu s.1 s.2) := by
      cases hlz : lz with
      | true =>
        rw [hlz, if_pos rfl] at hr
        rcases List.mem_cons.mp hr with h1 | h1
        · exact Or.inl h1
        · exact Or.inr h1
      | false =>
        rw [hlz, if_neg (by simp)] at hr
        rcases List.mem_append.mp hr with h1 | h1
        · exact Or.inr h1
        · exact Or.inl (List.mem_singleton.mp h1)
    rcases hsplit with h1 | h1
    · rw [h1]
      exact ⟨le_refl q, hq⟩
    · rcases List.mem_flatMap.mp h1 with ⟨s, hs, hr2⟩
      have hsf := List.mem_filter.mp hs
      have hhs := hf q cp s hq hsf.1
      have hrec := ih s.1 s.2 r hhs.2 hr2
      exact ⟨le_trans hhs.1 hrec.1, hrec.2⟩

theorem mat_bounds (t : List Char) :
    ∀ (re : RE) (p : Nat) (cp : Caps) (r : Nat × Caps),
      p ≤ t.length → r ∈ mat t re p cp → p ≤ r.1 ∧ r.1 ≤ t.length := by
  intro re
  induction re with
  | eps =>
    intro p cp r hp hr
    have hr2 : r = (p, cp) := by simpa [mat] using hr
    rw [hr2]
    exact ⟨le_refl p, hp⟩
  | chR c =>
    intro p cp r hp hr
    simp only [mat] at hr
    cases hg : t.get? p with
    | none => simp only [hg] at hr; cases hr
    | some d =>
      simp only [hg] at hr
      by_cases hd : d = c
      · rw [if_pos hd] at hr
        have hr2 : r = (p + 1, cp) := by simpa using hr
        rw [hr2]
        have hlt : p < t.length := (List.get?_eq_some.mp hg).1
        exact ⟨Nat.le_succ p, hlt⟩
      · rw [if_neg hd] at hr; cases hr
  | clsR neg items =>
    intro p cp r hp hr
    simp only [mat] at hr
    cases hg : t.get? p with
    | none => simp only [hg] at hr; cases hr
    | some d =>
      simp only [hg] at hr
      by_cases hd : clsHolds neg items d = true
      · rw [if_pos hd] at hr
        have hr2 : r = (p + 1, cp) := by simpa using hr
        rw [hr2]
        have hlt : p < t.length := (List.get?_eq_some.mp hg).1
        exact ⟨Nat.le_succ p, hlt⟩
      · rw [if_neg hd] at hr; cases hr
  | seqR a b iha ihb =>
    intro p cp r hp hr
    simp only [mat] at hr
    rcases List.mem_flatMap.mp hr with ⟨q, hq, hr2⟩
    have h1 := iha p cp q hp hq
    have h2 := ihb q.1 q.2 r h1.2 hr2
    exact ⟨le_trans h1.1 h2.1, h2.2⟩
  | altR a b iha ihb =>
    intro p cp r hp hr
    simp only [mat] at hr
    rcases List.mem_append.mp hr with h1 | h1
    · exact iha p cp r hp h1
    · exact ihb p cp r hp h1
  | starR lz a ih =>
    intro p cp r hp hr
    simp only [mat] at hr
    exact starLoop_bounds t.length (fun q c => mat t a q c) lz
      (fun q c s hq hs => ih q c s hq hs) (t.length + 1 - p) p cp r hp hr
  | groupR i a ih =>
    intro p cp r hp hr
    simp only [mat] at hr
    rcases List.mem_map.mp hr with ⟨q, hq, hqr⟩
    have h1 := ih p cp q hp hq
    rw [← hqr]
    exact h1
  | wordB =>
    intro p cp r hp hr
    simp only [mat] at hr
    split at hr
    · cases hr
    · have hr2 : r = (p, cp) := by simpa using hr
      rw [hr2]
      exact ⟨le_refl p, hp⟩

theorem matchAtM_elim (t : List Char) (re : RE) (p : Nat) (m : MatchR)
    (h : matchAtM t re p = some m) :
    m.start = p ∧ (m.stop, m.caps) ∈ mat t re p [] := by
  unfold matchAtM at h
  cases hh : (mat t re p []).head? with
  | none => rw [hh] at h; cases h
  | some r =>
    rw [hh] at h
    have hm : { start := p, stop := r.1, caps := r.2 : MatchR } = m := Option.some.inj h
    rw [← hm]
    exact ⟨rfl, by rw [Prod.mk.eta]; exact mem_of_head?_eq_some hh⟩

theorem searchFromAux_spec (t : List Char) (re : RE) :
    ∀ (fuel p : Nat) (m : MatchR), p ≤ t.length →
      searchFromAux t re fuel p = some m →
      p ≤ m.start ∧ matchAtM t re m.start = some m := by
  intro fuel
  induction fuel with
  | zero => intro p m hp h; cases h
  | succ fu ih =>
    intro p m hp h
    simp only [searchFromAux] at h
    cases hma : matchAtM t re p with
    | some m2 =>
      rw [hma] at h
      have hm : m2 = m := Option.some.inj h
      subst hm
      have hst := (matchAtM_elim t re p m2 hma).1
      refine ⟨le_of_eq hst.symm, ?_⟩
      rw [hst]
      exact hma
    | none =>
      rw [hma] at h
      by_cases hlt : p < t.length
      · rw [if_pos hlt] at h
        have := ih (p + 1) m hlt h
        exact ⟨le_trans (Nat.le_succ p) this.1, this.2⟩
      · rw [if_neg hlt] at h; cases h

theorem reSearch_spec (t : List Char) (re : RE) (m : MatchR)
    (h : reSearch t re = some m) :
    m.start ≤ t.length ∧ m.stop ≤ t.length ∧ m.start ≤ m.stop ∧
      (m.stop, m.caps) ∈ mat t re m.start [] := by
  have hs := searchFromAux_spec t re (t.length + 1 - 0) 0 m (Nat.zero_le _) h
  have he := matchAtM_elim t re m.start m hs.2
  -- m.start ≤ t.length: if m.start > t.length, mat bounds still need start ≤ len;
  -- the search loop only probes positions ≤ length
  have hstart : m.start ≤ t.length := by
    by_contra hgt
    push_neg at hgt
    -- search visits positions p with p ≤ t.length only
    have : ∀ (fuel p : Nat), p ≤ t.length → searchFromAux t re fuel p = some m →
        m.start ≤ t.length := by
      intro fuel
      induction fuel with
      | zero => intro p hp hh; cases hh
      | succ fu ih =>
        intro p hp hh
        simp only [searchFromAux] at hh
        cases hma : matchAtM t re p with
        | some m2 =>
          rw [hma] at hh
          have hm : m2 = m := Option.some.inj hh
          have hst := (matchAtM_elim t re p m2 hma).1
          rw [← hm, hst]
          exact hp
        | none =>
          rw [hma] at hh
          by_cases hlt : p < t.length
          · rw [if_pos hlt] at hh
            exact ih (p + 1) hlt hh
          · rw [if_neg hlt] at hh; cases hh
    exact absurd (this (t.length + 1 - 0) 0 (Nat.zero_le _) h) (by omega)
  have hb := mat_bounds t re m.start [] (m.stop, m.caps) hstart he.2
  exact ⟨hstart, hb.2, hb.1, he.2⟩

/-- Any successful single-character match advances the position by one (and
implies the position is inside the text). -/
theorem mat_chR_elim (t : List Char) (c : Char) (p : Nat) (cp : Caps) (q : Nat × Caps)
    (hq : q ∈ mat t (.chR c) p cp) : q.1 = p + 1 ∧ p < t.length := by
  simp only [mat] at hq
  cases hg : t.get? p with
  | none => simp only [hg] at hq; cases hq
  | some d =>
    simp only [hg] at hq
    by_cases hd : d = c
    · rw [if_pos hd] at hq
      have hq2 : q = (p + 1, cp) := by simpa using hq
      exact ⟨by rw [hq2], (List.get?_eq_some.mp hg).1⟩
    · rw [if_neg hd] at hq; cases hq

/-- `loopRe` begins with the literal `for`, so any match consumes at least
one character. -/
theorem mat_loopRe_progress (t : List Char) (p : Nat) (cp : Caps) (r : Nat × Caps)
    (hr : r ∈ mat t loopRe p cp) : p < r.1 := by
  have hr2 : r ∈ mat t (.seqR (rlit ("for")) (rcat [ws1, .chR '_', ws1, rlit ("in"), ws1,
      .chR '0', .chR '.', .chR '.', .groupR 1 (rplus wordCls), ws0, .chR '{'])) p cp := hr
  simp only [mat] at hr2
  rcases List.mem_flatMap.mp hr2 with ⟨q, hq, hrest⟩
  have hq2 : q ∈ mat t (.seqR (.chR 'f') (.seqR (.chR 'o') (.seqR (.chR 'r') .eps))) p cp := hq
  simp only [mat] at hq2
  rcases List.mem_flatMap.mp hq2 with ⟨q1, hq1, hq3⟩
  have h1 := mat_chR_elim t 'f' p cp q1 hq1
  have h2 := mat_bounds t (.seqR (.chR 'o') (.seqR (.chR 'r') .eps)) q1.1 q1.2 q
    (by rw [h1.1]; exact h1.2) hq3
  have h3 := mat_bounds t (rcat [ws1, .chR '_', ws1, rlit ("in"), ws1, .chR '0', .chR '.',
    .chR '.', .groupR 1 (rplus wordCls), ws0, .chR '{']) q.1 q.2 r h2.2 hrest
  omega

theorem loopRe_search_facts (body : List Char) (m : MatchR)
    (hm : reSearch body loopRe = some m) :
    m.start < m.stop ∧ m.stop ≤ body.length := by
  have hs := reSearch_spec body loopRe m hm
  exact ⟨mat_loopRe_progress body m.start [] (m.stop, m.caps) hs.2.2.2, hs.2.1⟩

theorem fmbsAux_bounds :
    ∀ (l : List Char) (i : Nat) (depth : Int) (instr esc : Bool) (j : Nat),
      fmbsAux l i depth instr esc = some j → i ≤ j ∧ j < i + l.length := by
  intro l
  induction l with
  | nil => intro i depth instr esc j h; cases h
  | cons c rest ih =>
    intro i depth instr esc j h
    simp only [fmbsAux] at h
    by_cases h1 : instr = true
    · rw [if_pos h1] at h
      by_cases h2 : esc = true
      · rw [if_pos h2] at h
        have := ih (i + 1) depth true false j h
        refine ⟨by omega, by simp [List.length_cons]; omega⟩
      · rw [if_neg h2] at h
        by_cases h3 : c = '\\'
        · rw [if_pos h3] at h
          have := ih (i + 1) depth true true j h
          refine ⟨by omega, by simp [List.length_cons]; omega⟩
        · rw [if_neg h3] at h
          by_cases h4 : c = '"'
          · rw [if_pos h4] at h
            have := ih (i + 1) depth false false j h
            refine ⟨by omega, by simp [List.length_cons]; omega⟩
          · rw [if_neg h4] at h
            have := ih (i + 1) depth true false j h
            refine ⟨by omega, by simp [List.length_cons]; omega⟩
    · rw [if_neg h1] at h
      by_cases h4 : c = '"'
      · rw [if_pos h4] at h
        have := ih (i + 1) depth true false j h
        refine ⟨by omega, by simp [List.length_cons]; omega⟩
      · rw [if_neg h4] at h
        by_cases h5 : c = '{'
        · rw [if_pos h5] at h
          have := ih (i + 1) (depth + 1) false false j h
          refine ⟨by omega, by simp [List.length_cons]; omega⟩
        · rw [if_neg h5] at h
          by_cases h6 : c = '}'
          · rw [if_pos h6] at h
            by_cases h7 : depth - 1 = 0
            · rw [if_pos h7] at h
              have hj : j = i := (Option.some.inj h).symm
              refine ⟨by omega, by simp [List.length_cons]; omega⟩
            · rw [if_neg h7] at h
              have := ih (i + 1) (depth - 1) false false j h
              refine ⟨by omega, by simp [List.length_cons]; omega⟩
          · rw [if_neg h6] at h
            have := ih (i + 1) depth false false j h
            refine ⟨by omega, by simp [List.length_cons]; omega⟩

theorem find_matching_brace_slow_bounds (t : List Char) (i j : Nat)
    (h : find_matching_brace_slow t i = some j) : i ≤ j ∧ j < t.length := by
  unfold find_matching_brace_slow at h
  have hb := fmbsAux_bounds (t.drop i) i 0 false false j h
  rcases hb with ⟨h1, h2⟩
  refine ⟨h1, ?_⟩
  rw [List.length_drop] at h2
  by_cases hle : i ≤ t.length
  · omega
  · exfalso
    have hnil : t.drop i = [] := List.drop_eq_nil_of_le (by omega)
    rw [hnil] at h
    cases h

theorem findCharAux_bounds :
    ∀ (l : List Char) (c : Char) (i j : Nat),
      findCharAux l c i = some j → i ≤ j ∧ j < i + l.length := by
  intro l
  induction l with
  | nil => intro c i j h; cases h
  | cons d rest ih =>
    intro c i j h
    simp only [findCharAux] at h
    by_cases hd : d = c
    · rw [if_pos hd] at h
      have hj : j = i := (Option.some.inj h).symm
      refine ⟨by omega, by simp [List.length_cons]; omega⟩
    · rw [if_neg hd] at h
      have := ih c (i + 1) j h
      refine ⟨by omega, by simp [List.length_cons]; omega⟩

theorem findCharFrom_bounds (t : List Char) (c : Char) (f j : Nat)
    (h : findCharFrom t c f = some j) : f ≤ j ∧ j < t.length := by
  unfold findCharFrom at h
  have hb := findCharAux_bounds (t.drop f) c f j h
  rcases hb with ⟨h1, h2⟩
  refine ⟨h1, ?_⟩
  rw [List.length_drop] at h2
  by_cases hle : f ≤ t.length
  · omega
  · exfalso
    have hnil : t.drop f = [] := List.drop_eq_nil_of_le (by omega)
    rw [hnil] at h
    cases h

/-! ## Fuel congruence for `parse_commands_go` -/

theorem parse_commands_go_congr :
    ∀ (n : Nat) (body : List Char), body.length ≤ n →
      ∀ (env : Env) (f g : Nat), body.length < f → body.length < g →
        parse_commands_go f body env = parse_commands_go g body env := by
  intro n
  induction n with
  | zero =>
    intro body hlen env f g hf hg
    have hnil : body = [] := List.eq_nil_of_length_eq_zero (Nat.le_zero.mp hlen)
    subst hnil
    cases f with
    | zero => omega
    | succ f2 =>
      cases g with
      | zero => omega
      | succ g2 =>
        have hnone : reSearch ([] : List Char) loopRe = none := by decide
        simp only [parse_commands_go, hnone]
  | succ n2 ih =>
    intro body hlen env f g hf hg
    cases f with
    | zero => omega
    | succ f2 =>
      cases g with
      | zero => omega
      | succ g2 =>
        simp only [parse_commands_go]
        split
        · rfl
        · rename_i m hm
          split
          · rfl
          · rename_i bo hbo
            split
            · rfl
            · rename_i bc hbc
              have hfacts := loopRe_search_facts body m hm
              have hbcb := find_matching_brace_slow_bounds body bo bc hbc
              have hlb : m.start < body.length := by omega
              have hlenB : (body.take m.start).length < body.length := by
                rw [List.length_take]
                omega
              have hlenI : ((body.drop (bo + 1)).take (bc - bo - 1)).length < body.length := by
                rw [List.length_take, List.length_drop]
                omega
              have hlenA : (body.drop (bc + 1)).length < body.length := by
                rw [List.length_drop]
                omega
              have e1 : parse_commands_go f2 (body.take m.start) env
                  = parse_commands_go g2 (body.take m.start) env :=
                ih (body.take m.start) (by omega) env f2 g2 (by omega) (by omega)
              have e2 : parse_commands_go f2 ((body.drop (bo + 1)).take (bc - bo - 1)) env
                  = parse_commands_go g2 ((body.drop (bo + 1)).take (bc - bo - 1)) env :=
                ih _ (by omega) env f2 g2 (by omega) (by omega)
              have e3 : parse_commands_go f2 (body.drop (bc + 1)) env
                  = parse_commands_go g2 (body.drop (bc + 1)) env :=
                ih _ (by omega) env f2 g2 (by omega) (by omega)
              simp only [e1, e2, e3]

theorem exceptBind_ok {e a b : Type} (x : a) (f : a → Except e b) :
    (Except.ok x >>= f) = f x := rfl

/-! ## Claim C2: the loop unroller -/

/-- Claim C2: when the body splits as `before ++ (for _ in 0..N { inside }) ++
after` — expressed by the loop search, the brace location and the matching
close — `parse_commands` is the compilation of `before`, then the compiled
`inside` replicated `N` times (`N = int(parse_value(count))`), then the
compilation of `after` (`N = 0` contributing no inner tokens); a negative
evaluated count raises the invalid-loop-repeat error before any region is
compiled. -/
theorem claim_C2_loop_unroll :
    ∀ (body : List Char) (env : Env) (m : MatchR) (bo bc : Nat) (rv : PyFloat) (N : Int),
      reSearch body loopRe = some m →
      findCharFrom body '{' (m.stop - 1) = some bo →
      find_matching_brace_slow body bo = some bc →
      parse_value (matchGroup body m 1) env = .ok rv →
      N = pyTrunc rv →
      (0 ≤ N →
        parse_commands body (some env) =
          (do
            let tb ← parse_commands (body.take m.start) (some env)
            let ti ← parse_commands ((body.drop (bo + 1)).take (bc - bo - 1)) (some env)
            let ta ← parse_commands (body.drop (bc + 1)) (some env)
            Except.ok (tb ++ (List.replicate N.toNat ti).flatten ++ ta))) ∧
      (N < 0 → parse_commands body (some env) = .error (.invalidLoopRepeat N)) := by
  intro body env m bo bc rv N hm hbo hbc hv hN
  have hfacts := loopRe_search_facts body m hm
  have hbcb := find_matching_brace_slow_bounds body bo bc hbc
  have hlb : m.start < body.length := by omega
  have hlenB : (body.take m.start).length < body.length := by
    rw [List.length_take]; omega
  have hlenI : ((body.drop (bo + 1)).take (bc - bo - 1)).length < body.length := by
    rw [List.length_take, List.length_drop]; omega
  have hlenA : (body.drop (bc + 1)).length < body.length := by
    rw [List.length_drop]; omega
  have hunf : parse_commands body (some env)
      = parse_commands_go (body.length + 1) body env := rfl
  subst hN
  constructor
  · intro hpos
    rw [hunf]
    simp only [parse_commands_go, hm, hbo, hbc, hv, exceptBind_ok]
    rw [if_neg (by omega : ¬ pyTrunc rv < 0)]
    have e1 : parse_commands_go body.length (body.take m.start) env
        = parse_commands (body.take m.start) (some env) :=
      parse_commands_go_congr body.length (body.take m.start) (by omega) env
        body.length ((body.take m.start).length + 1) (by omega) (by omega)
    have e2 : parse_commands_go body.length ((body.drop (bo + 1)).take (bc - bo - 1)) env
        = parse_commands ((body.drop (bo + 1)).take (bc - bo - 1)) (some env) :=
      parse_commands_go_congr body.length _ (by omega) env body.length _ (by omega) (by omega)
    have e3 : parse_commands_go body.length (body.drop (bc + 1)) env
        = parse_commands (body.drop (bc + 1)) (some env) :=
      parse_commands_go_congr body.length _ (by omega) env body.length _ (by omega) (by omega)
    simp only [e1, e2, e3]
  · intro hneg
    rw [hunf]
    simp only [parse_commands_go, hm, hbo, hbc, hv, exceptBind_ok]
    rw [if_pos hneg]

/-- The C2 witness body: a call before, a bounded repetition with count 2,
a call after. -/
def c2Body : List Char :=
  ("state.set_animation(0, \"a\", true); for _ in 0..2 \x7b state.update(0.5); \x7d skeleton.set_skin(None);").toList

/-- Claim C2 witness: the theorem applied to the concrete body — the inner
region's tokens appear exactly twice between the before and after tokens. -/
theorem claim_C2_witness :
    parse_commands c2Body (some []) =
      .ok ["--set", "0", "a", "1", "--physics", "none", "--step", "0.5",
        "--physics", "none", "--step", "0.5", "--set-skin", "none"] := by
  have h := (claim_C2_loop_unroll c2Body [] { start := 35, stop := 50, caps := [(1, 47, 48)] }
    49 70 (mkB64 2 1) 2 (by decide) (by decide) (by decide) (by decide) (by decide)).1
    (by decide)
  rw [h]
  decide

/-! ## Claim C5: the chunked fast-path scanner vs the exact slow scanner -/

/-- A text whose string literal straddles the 4096-character chunk boundary:
an opening brace, a quote, 4200 filler characters, then a brace, a quote and
the closing brace of index 0's opener. -/
def c5Text : List Char := ['{', '"'] ++ (List.replicate 4200 'a' ++ ['{', '"', '}'])

/-- Inside a string, a run of filler characters only advances the index. -/
theorem fmbsAux_replicate_instr (rest : List Char) :
    ∀ (n i : Nat) (d : Int),
      fmbsAux (List.replicate n 'a' ++ rest) i d true false = fmbsAux rest (i + n) d true false := by
  intro n
  induction n with
  | zero => intro i d; simp
  | succ n2 ih =>
    intro i d
    rw [List.replicate_succ, List.cons_append]
    have h1 : fmbsAux ('a' :: (List.replicate n2 'a' ++ rest)) i d true false
        = fmbsAux (List.replicate n2 'a' ++ rest) (i + 1) d true false := by
      simp [fmbsAux]
    rw [h1, ih (i + 1) d]
    have : i + 1 + n2 = i + (n2 + 1) := by omega
    rw [this]

/-- Inside a string, the stripper drops a run of filler characters. -/
theorem stripRustAux_replicate_bare :
    ∀ n, stripRustAux (List.replicate n 'a') true false = [] := by
  intro n
  induction n with
  | zero => rfl
  | succ n2 ih =>
    rw [List.replicate_succ]
    have h1 : stripRustAux ('a' :: List.replicate n2 'a') true false
        = stripRustAux (List.replicate n2 'a') true false := by
      simp [stripRustAux]
    rw [h1, ih]

/-- Outside a string, the stripper keeps a run of filler characters. -/
theorem stripRustAux_replicate_code (rest : List Char) :
    ∀ n, stripRustAux (List.replicate n 'a' ++ rest) false false
      = List.replicate n 'a' ++ stripRustAux rest false false := by
  intro n
  induction n with
  | zero => simp
  | succ n2 ih =>
    rw [List.replicate_succ, List.cons_append]
    have h1 : stripRustAux ('a' :: (List.replicate n2 'a' ++ rest)) false false
        = 'a' :: stripRustAux (List.replicate n2 'a' ++ rest) false false := by
      simp [stripRustAux]
    rw [h1, ih]
    rfl

/-- A run of filler characters does not change a chunk's brace depth. -/
theorem chunkDepth_replicate (rest : List Char) :
    ∀ (n : Nat) (d : Int), chunkDepth (List.replicate n 'a' ++ rest) d = chunkDepth rest d := by
  intro n
  induction n with
  | zero => intro d; simp
  | succ n2 ih =>
    intro d
    rw [List.replicate_succ, List.cons_append]
    have h1 : chunkDepth ('a' :: (List.replicate n2 'a' ++ rest)) d
        = chunkDepth (List.replicate n2 'a' ++ rest) d := by
      simp [chunkDepth]
    rw [h1, ih]

/-- Two steps of the slow scanner: an opening brace then a quote. -/
theorem fmbsAux_step2 (l : List Char) (i : Nat) (d : Int) :
    fmbsAux ('{' :: '"' :: l) i d false false = fmbsAux l (i + 1 + 1) (d + 1) true false := by
  simp [fmbsAux]

/-- Two steps of the stripper: an opening brace then a quote. -/
theorem stripRustAux_step2 (l : List Char) :
    stripRustAux ('{' :: '"' :: l) false false = '{' :: stripRustAux l true false := by
  simp [stripRustAux]

theorem c5_len : c5Text.length = 4205 := by
  show ((['{', '"'] : List Char) ++ (List.replicate 4200 'a' ++ ['{', '"', '}'])).length = 4205
  rw [List.length_append, List.length_append, List.length_replicate]
  rfl

/-- The exact string-aware scan succeeds on `c5Text`: the whole filler run and
the inner brace sit inside one string literal, and the final brace closes the
opener at index 0. -/
theorem c5_slow : find_matching_brace_slow c5Text 0 = some 4204 := by
  show fmbsAux (c5Text.drop 0) 0 0 false false = some 4204
  rw [List.drop_zero]
  show fmbsAux ('{' :: '"' :: (List.replicate 4200 'a' ++ ['{', '"', '}'])) 0 0 false false
    = some 4204
  rw [fmbsAux_step2]
  show fmbsAux (List.replicate 4200 'a' ++ ['{', '"', '}']) 2 1 true false = some 4204
  rw [fmbsAux_replicate_instr ['{', '"', '}'] 4200 2 1]
  show fmbsAux ['{', '"', '}'] 4202 1 true false = some 4204
  simp [fmbsAux]

theorem c5_take1 : c5Text.take 4096 = '{' :: '"' :: List.replicate 4094 'a' := by
  show ((['{', '"'] : List Char) ++ (List.replicate 4200 'a' ++ ['{', '"', '}'])).take 4096 = _
  rw [List.take_append_eq_append_take]
  rw [List.take_of_length_le (by simp : (['{', '"'] : List Char).length ≤ 4096)]
  have h2 : (4096 : Nat) - (['{', '"'] : List Char).length = 4094 := by simp
  rw [h2]
  rw [List.take_append_of_le_length
    (by rw [List.length_replicate]; norm_num : (4094 : Nat) ≤ (List.replicate 4200 'a').length)]
  rw [List.take_replicate]
  have h3 : min 4094 4200 = 4094 := by norm_num
  rw [h3]
  rfl

/-- The first chunk of `c5Text` strips to a single opening brace: the quote
opens a string and the rest of the chunk is dropped. -/
theorem c5_chunk1 : strip_rust_strings_for_brace_count (c5Text.take 4096) = ['{'] := by
  rw [c5_take1]
  show stripRustAux ('{' :: '"' :: List.replicate 4094 'a') false false = ['{']
  rw [stripRustAux_step2, stripRustAux_replicate_bare]

theorem c5_drop2 : c5Text.drop 4096 = List.replicate 106 'a' ++ ['{', '"', '}'] := by
  show ((['{', '"'] : List Char) ++ (List.replicate 4200 'a' ++ ['{', '"', '}'])).drop 4096 = _
  rw [List.drop_append_eq_append_drop]
  rw [List.drop_eq_nil_of_le (by simp : (['{', '"'] : List Char).length ≤ 4096)]
  have h2 : (4096 : Nat) - (['{', '"'] : List Char).length = 4094 := by simp
  rw [h2, List.nil_append]
  rw [List.drop_append_of_le_length
    (by rw [List.length_replicate]; norm_num : (4094 : Nat) ≤ (List.replicate 4200 'a').length)]
  rw [List.drop_replicate]

/-- The second chunk restarts the stripper outside any string (the per-chunk
state reset), so its inner brace is kept, its quote opens a fresh string and
the true closing brace is dropped. -/
theorem c5_chunk2 : strip_rust_strings_for_brace_count ((c5Text.drop 4096).take 4096)
    = List.replicate 106 'a' ++ ['{'] := by
  rw [c5_drop2]
  rw [List.take_of_length_le (by
    rw [List.length_append, List.length_replicate]
    norm_num)]
  show stripRustAux (List.replicate 106 'a' ++ ['{', '"', '}']) false false = _
  rw [stripRustAux_replicate_code]
  have h1 : stripRustAux ['{', '"', '}'] false false = ['{'] := by
    simp [stripRustAux]
  rw [h1]

/-- One unfolding of the chunk loop (abstract fuel). -/
theorem fmbAux_step (t : List Char) (oi fuel i : Nat) (d : Int) :
    fmbAux t oi (fuel + 1) i d =
      (if i < t.length then
        match chunkDepth (strip_rust_strings_for_brace_count ((t.drop i).take 4096)) d with
        | none => find_matching_brace_slow t oi
        | some d2 => fmbAux t oi fuel (i + 4096) d2
      else none) := rfl

/-- The chunked scanner raises on `c5Text`: neither chunk's stripped depth ever
returns to zero, so the loop runs off the end without deferring to the slow
scan. -/
theorem c5_fast : find_matching_brace c5Text 0 = none := by
  show fmbAux c5Text 0 (c5Text.length + 1) 0 0 = none
  rw [fmbAux_step]
  rw [if_pos (by rw [c5_len]; norm_num : 0 < c5Text.length)]
  rw [show (c5Text.drop 0) = c5Text from List.drop_zero c5Text]
  rw [show c5Text.take 4096 = '{' :: '"' :: List.replicate 4094 'a' from c5_take1]
  rw [show strip_rust_strings_for_brace_count ('{' :: '"' :: List.replicate 4094 'a') = ['{'] from by rw [← c5_take1]; exact c5_chunk1]
  rw [show chunkDepth ['{'] 0 = some 1 from by simp [chunkDepth]]
  show fmbAux c5Text 0 c5Text.length (0 + 4096) 1 = none
  rw [c5_len]
  show fmbAux c5Text 0 (4204 + 1) (0 + 4096) 1 = none
  rw [fmbAux_step]
  rw [if_pos (by rw [c5_len]; norm_num : 0 + 4096 < c5Text.length)]
  rw [show ((0 : Nat) + 4096) = 4096 from rfl]
  rw [show (c5Text.drop 4096).take 4096 = List.replicate 106 'a' ++ ['{', '"', '}'] from by
    rw [c5_drop2]
    exact List.take_of_length_le (by rw [List.length_append, List.length_replicate]; norm_num)]
  rw [show strip_rust_strings_for_brace_count (List.replicate 106 'a' ++ ['{', '"', '}']) = List.replicate 106 'a' ++ ['{'] from by
    show stripRustAux (List.replicate 106 'a' ++ ['{', '"', '}']) false false = _
    rw [stripRustAux_replicate_code]
    rfl]
  rw [show chunkDepth (List.replicate 106 'a' ++ ['{']) 1 = some 2 from by
    rw [chunkDepth_replicate]
    simp [chunkDepth]]
  show fmbAux c5Text 0 (4203 + 1) (4096 + 4096) 2 = none
  rw [fmbAux_step]
  rw [if_neg (by rw [c5_len]; norm_num : ¬ 4096 + 4096 < c5Text.length)]

/-- If the chunk loop ever returns an index, it did so by deferring to the
slow scan, so the index is the slow scan's. -/
theorem fmbAux_some_imp_slow (t : List Char) (oi : Nat) :
    ∀ (fuel i : Nat) (d : Int) (j : Nat),
      fmbAux t oi fuel i d = some j → find_matching_brace_slow t oi = some j := by
  intro fuel
  induction fuel with
  | zero => intro i d j h; exact absurd h (by simp [fmbAux])
  | succ n ih =>
    intro i d j h
    rw [fmbAux_step] at h
    by_cases hi : i < t.length
    · rw [if_pos hi] at h
      cases hc : chunkDepth (strip_rust_strings_for_brace_count ((t.drop i).take 4096)) d with
      | none => rw [hc] at h; exact h
      | some d2 => rw [hc] at h; exact ih (i + 4096) d2 j h
    · rw [if_neg hi] at h; cases h

/-- Claim C5: counterexample. On `c5Text`, whose string literal straddles the
4096-character chunk boundary, the exact scan `find_matching_brace_slow`
returns index 4204 while the chunked `find_matching_brace` raises the
unbalanced-delimiters error (modeled as `none`), refuting the claim that the
fast path returns an index exactly when the exact scan does and raises
exactly when it raises. -/
theorem claim_C5_counterexample :
    find_matching_brace_slow c5Text 0 = some 4204 ∧ find_matching_brace c5Text 0 = none :=
  ⟨c5_slow, c5_fast⟩

/-- Claim C5 (amended): for every text and opening index, whenever the chunked
`find_matching_brace` returns an index it is exactly the index of the exact
scan `find_matching_brace_slow` (the fast path always defers to the slow scan
on success), and whenever the exact scan raises the chunked scanner raises as
well; but the converse fails: the chunked scanner may raise the
unbalanced-delimiters error on texts the exact scan handles. -/
theorem claim_C5_amended (t : List Char) (oi : Nat) :
    (∀ j, find_matching_brace t oi = some j → find_matching_brace_slow t oi = some j) ∧
    (find_matching_brace_slow t oi = none → find_matching_brace t oi = none) := by
  constructor
  · intro j h
    exact fmbAux_some_imp_slow t oi (t.length + 1) oi 0 j h
  · intro hs
    cases hf : find_matching_brace t oi with
    | none => rfl
    | some j =>
      have h2 := fmbAux_some_imp_slow t oi (t.length + 1) oi 0 j hf
      rw [hs] at h2
      cases h2

/-- Claim C5 witness: on the three-character text with braces around one
letter both scanners return index 2; on the text of a brace, a space and a
lone quote the exact scan raises, hence so does the chunked scanner. -/
theorem claim_C5_witness :
    find_matching_brace_slow ("\x7bx\x7d".toList) 0 = some 2 ∧
    find_matching_brace ("\x7b \"".toList) 0 = none :=
  ⟨(claim_C5_amended ("\x7bx\x7d".toList) 0).1 2 (by decide),
   (claim_C5_amended ("\x7b \"".toList) 0).2 (by decide)⟩


/-! ## Claim C3: pooled matches, offset order, pattern-order independence -/

def noWB : RE → Bool
  | .eps => true
  | .chR _ => true
  | .clsR _ _ => true
  | .seqR a b => noWB a && noWB b
  | .altR a b => noWB a && noWB b
  | .starR _ a => noWB a
  | .groupR _ a => noWB a
  | .wordB => false

theorem starLoop_self_mem (f : Nat → Caps → List (Nat × Caps)) (lzy : Bool) :
    ∀ (fuel p : Nat) (cp : Caps), (p, cp) ∈ starLoop f lzy fuel p cp := by
  intro fuel p cp
  cases fuel with
  | zero => simp [starLoop]
  | succ fu =>
    simp only [starLoop]
    cases lzy with
    | true => simp
    | false => simp

theorem starLoop_elim (f : Nat → Caps → List (Nat × Caps)) (lzy : Bool)
    (fuel p : Nat) (cp : Caps) (r : Nat × Caps) (hr : r ∈ starLoop f lzy fuel p cp) :
    r = (p, cp) ∨ ∃ fu s, fuel = fu + 1 ∧ s ∈ f p cp ∧ p < s.1 ∧ r ∈ starLoop f lzy fu s.1 s.2 := by
  cases fuel with
  | zero =>
    left
    simpa [starLoop] using hr
  | succ fu =>
    simp only [starLoop] at hr
    have hsplit : r = (p, cp) ∨
        r ∈ ((f p cp).filter (fun s => p < s.1)).flatMap (fun s => starLoop f lzy fu s.1 s.2) := by
      cases hlz : lzy with
      | true =>
        rw [hlz, if_pos rfl] at hr
        rcases List.mem_cons.mp hr with h1 | h1
        · exact Or.inl h1
        · exact Or.inr h1
      | false =>
        rw [hlz, if_neg (by simp)] at hr
        rcases List.mem_append.mp hr with h1 | h1
        · exact Or.inr h1
        · exact Or.inl (List.mem_singleton.mp h1)
    rcases hsplit with h1 | h1
    · exact Or.inl h1
    · rcases List.mem_flatMap.mp h1 with ⟨s, hs, hr2⟩
      have hsf := List.mem_filter.mp hs
      exact Or.inr ⟨fu, s, rfl, hsf.1, by simpa using hsf.2, hr2⟩

theorem starLoop_mem_deeper (f : Nat → Caps → List (Nat × Caps)) (lzy : Bool)
    (fuel p : Nat) (cp : Caps) (s r : Nat × Caps)
    (hs : s ∈ f p cp) (hlt : p < s.1) (hr : r ∈ starLoop f lzy fuel s.1 s.2) :
    r ∈ starLoop f lzy (fuel + 1) p cp := by
  simp only [starLoop]
  have hmem : r ∈ ((f p cp).filter (fun u => p < u.1)).flatMap
      (fun u => starLoop f lzy fuel u.1 u.2) :=
    List.mem_flatMap.mpr ⟨s, List.mem_filter.mpr ⟨hs, by simpa using hlt⟩, hr⟩
  cases lzy with
  | true => simpa using Or.inr hmem
  | false => simpa using Or.inl hmem

theorem starLoop_mono (f : Nat → Caps → List (Nat × Caps)) (lzy : Bool) :
    ∀ (n n' p : Nat) (cp : Caps) (r : Nat × Caps), n ≤ n' →
      r ∈ starLoop f lzy n p cp → r ∈ starLoop f lzy n' p cp := by
  intro n
  induction n with
  | zero =>
    intro n' p cp r _ hr
    have hr2 : r = (p, cp) := by simpa [starLoop] using hr
    rw [hr2]
    exact starLoop_self_mem f lzy n' p cp
  | succ n ih =>
    intro n' p cp r hle hr
    rcases starLoop_elim f lzy (n + 1) p cp r hr with h1 | ⟨fu, s, hfu, hs, hlt, hr2⟩
    · rw [h1]
      exact starLoop_self_mem f lzy n' p cp
    · have hfu2 : fu = n := by omega
      rw [hfu2] at hr2
      obtain ⟨n2, hn2⟩ : ∃ n2, n' = n2 + 1 := ⟨n' - 1, by omega⟩
      subst hn2
      exact starLoop_mem_deeper f lzy n2 p cp s r hs hlt (ih n2 s.1 s.2 r (by omega) hr2)

theorem get?_embed (pre tok post : List Char) (p : Nat) (d : Char)
    (h : tok.get? p = some d) : (pre ++ (tok ++ post)).get? (pre.length + p) = some d := by
  have hp : p < tok.length := (List.get?_eq_some.mp h).1
  rw [List.get?_append_right (by omega : pre.length ≤ pre.length + p)]
  have h2 : pre.length + p - pre.length = p := by omega
  rw [h2, List.get?_append hp]
  exact h

theorem mat_embed (pre tok post : List Char) :
    ∀ (r : RE), noWB r = true →
    ∀ (p : Nat) (q : Nat × Caps) (cp₀ cp₁ : Caps),
      q ∈ mat tok r p cp₀ →
      ∃ cp', (pre.length + q.1, cp') ∈ mat (pre ++ (tok ++ post)) r (pre.length + p) cp₁ := by
  intro r
  induction r with
  | eps =>
    intro _ p q cp₀ cp₁ hq
    have hq2 : q = (p, cp₀) := by simpa [mat] using hq
    exact ⟨cp₁, by simp [mat, hq2]⟩
  | chR c =>
    intro _ p q cp₀ cp₁ hq
    simp only [mat] at hq
    cases hg : tok.get? p with
    | none => simp only [hg] at hq; cases hq
    | some d =>
      simp only [hg] at hq
      by_cases hd : d = c
      · rw [if_pos hd] at hq
        have hq2 : q = (p + 1, cp₀) := by simpa using hq
        refine ⟨cp₁, ?_⟩
        simp only [mat, get?_embed pre tok post p d hg, if_pos hd]
        simp [hq2, Nat.add_assoc]
      · rw [if_neg hd] at hq; cases hq
  | clsR neg items =>
    intro _ p q cp₀ cp₁ hq
    simp only [mat] at hq
    cases hg : tok.get? p with
    | none => simp only [hg] at hq; cases hq
    | some d =>
      simp only [hg] at hq
      by_cases hd : clsHolds neg items d = true
      · rw [if_pos hd] at hq
        have hq2 : q = (p + 1, cp₀) := by simpa using hq
        refine ⟨cp₁, ?_⟩
        simp only [mat, get?_embed pre tok post p d hg, if_pos hd]
        simp [hq2, Nat.add_assoc]
      · rw [if_neg hd] at hq; cases hq
  | seqR a b iha ihb =>
    intro hw p q cp₀ cp₁ hq
    have hwa : noWB a = true := by
      have := hw; simp [noWB] at this; exact this.1
    have hwb : noWB b = true := by
      have := hw; simp [noWB] at this; exact this.2
    simp only [mat] at hq
    rcases List.mem_flatMap.mp hq with ⟨s, hs, hq2⟩
    rcases iha hwa p s cp₀ cp₁ hs with ⟨cs', hcs⟩
    rcases ihb hwb s.1 q s.2 cs' hq2 with ⟨cp', hcp⟩
    exact ⟨cp', by
      simp only [mat]
      exact List.mem_flatMap.mpr ⟨(pre.length + s.1, cs'), hcs, hcp⟩⟩
  | altR a b iha ihb =>
    intro hw p q cp₀ cp₁ hq
    have hwa : noWB a = true := by
      have := hw; simp [noWB] at this; exact this.1
    have hwb : noWB b = true := by
      have := hw; simp [noWB] at this; exact this.2
    simp only [mat] at hq
    rcases List.mem_append.mp hq with h1 | h1
    · rcases iha hwa p q cp₀ cp₁ h1 with ⟨cp', hcp⟩
      exact ⟨cp', by simp only [mat]; exact List.mem_append.mpr (Or.inl hcp)⟩
    · rcases ihb hwb p q cp₀ cp₁ h1 with ⟨cp', hcp⟩
      exact ⟨cp', by simp only [mat]; exact List.mem_append.mpr (Or.inr hcp)⟩
  | starR lzy a ih =>
    intro hw p q cp₀ cp₁ hq
    have hwa : noWB a = true := by simpa [noWB] using hw
    simp only [mat] at hq
    have aux : ∀ (fuel p2 : Nat) (q2 : Nat × Caps) (c₀ c₁ : Caps),
        q2 ∈ starLoop (fun u c => mat tok a u c) lzy fuel p2 c₀ →
        ∃ cp', (pre.length + q2.1, cp') ∈
          starLoop (fun u c => mat (pre ++ (tok ++ post)) a u c) lzy fuel (pre.length + p2) c₁ := by
      intro fuel
      induction fuel with
      | zero =>
        intro p2 q2 c₀ c₁ hq2
        have hq3 : q2 = (p2, c₀) := by simpa [starLoop] using hq2
        exact ⟨c₁, by simp [starLoop, hq3]⟩
      | succ fu ihf =>
        intro p2 q2 c₀ c₁ hq2
        rcases starLoop_elim _ lzy (fu + 1) p2 c₀ q2 hq2 with h1 | ⟨fu2, s, hfu, hs, hlt, hq3⟩
        · exact ⟨c₁, by
            rw [h1]
            exact starLoop_self_mem _ lzy (fu + 1) (pre.length + p2) c₁⟩
        · have hfu2 : fu2 = fu := by omega
          rw [hfu2] at hq3
          rcases ih hwa p2 s c₀ c₁ hs with ⟨cs', hcs⟩
          rcases ihf s.1 q2 s.2 cs' hq3 with ⟨cp', hcp⟩
          exact ⟨cp', starLoop_mem_deeper _ lzy fu (pre.length + p2) c₁
            (pre.length + s.1, cs') (pre.length + q2.1, cp') hcs (by omega) hcp⟩
    rcases aux (tok.length + 1 - p) p q cp₀ cp₁ hq with ⟨cp', hcp⟩
    refine ⟨cp', ?_⟩
    simp only [mat]
    refine starLoop_mono _ lzy (tok.length + 1 - p) ((pre ++ (tok ++ post)).length + 1 - (pre.length + p))
      (pre.length + p) cp₁ (pre.length + q.1, cp') ?_ hcp
    simp only [List.length_append]
    omega
  | groupR i a ih =>
    intro hw p q cp₀ cp₁ hq
    have hwa : noWB a = true := by simpa [noWB] using hw
    simp only [mat] at hq
    rcases List.mem_map.mp hq with ⟨s, hs, heq⟩
    rcases ih hwa p s cp₀ cp₁ hs with ⟨cp', hcp⟩
    refine ⟨(i, pre.length + p, pre.length + s.1) :: cp', ?_⟩
    simp only [mat]
    have : (pre.length + s.1, (i, pre.length + p, pre.length + s.1) :: cp') ∈
        (mat (pre ++ (tok ++ post)) a (pre.length + p) cp₁).map
          (fun r => (r.1, (i, pre.length + p, r.1) :: r.2)) :=
      List.mem_map.mpr ⟨(pre.length + s.1, cp'), hcp, rfl⟩
    rw [← heq]
    exact this
  | wordB =>
    intro hw
    cases hw

theorem reSearch_of_matchAt (t : List Char) (re : RE) (qq : Nat) (hq : qq ≤ t.length)
    (hm : matchAtM t re qq ≠ none) : reSearch t re ≠ none := by
  have aux : ∀ (fuel p : Nat), p ≤ qq → qq < p + fuel → searchFromAux t re fuel p ≠ none := by
    intro fuel
    induction fuel with
    | zero => intro p h1 h2; omega
    | succ fu ih =>
      intro p h1 h2
      simp only [searchFromAux]
      cases hma : matchAtM t re p with
      | some m => simp
      | none =>
        have hpq : p ≠ qq := by
          intro he
          rw [he] at hma
          exact hm hma
        have hlt : p < t.length := by omega
        rw [if_pos hlt]
        exact ih (p + 1) (by omega) (by omega)
  have h0 : reSearch t re = searchFromAux t re (t.length + 1 - 0) 0 := rfl
  rw [h0]
  exact aux (t.length + 1 - 0) 0 (Nat.zero_le qq) (by omega)

theorem noWB_loopRe : noWB loopRe = true := by decide

theorem slice_lf (body : List Char) (a b : Nat)
    (h : reSearch body loopRe = none) :
    reSearch ((body.drop a).take b) loopRe = none := by
  cases hs : reSearch ((body.drop a).take b) loopRe with
  | none => rfl
  | some m =>
    exfalso
    have hspec := reSearch_spec ((body.drop a).take b) loopRe m hs
    have hmem := hspec.2.2.2
    have hdecomp : body = body.take a ++ (((body.drop a).take b) ++ ((body.drop a).drop b)) := by
      rw [List.take_append_drop, List.take_append_drop]
    rcases mat_embed (body.take a) ((body.drop a).take b) ((body.drop a).drop b)
        loopRe noWB_loopRe m.start (m.stop, m.caps) [] [] hmem with ⟨cp', hcp⟩
    rw [← hdecomp] at hcp
    have hne : matchAtM body loopRe ((body.take a).length + m.start) ≠ none := by
      unfold matchAtM
      cases hh : (mat body loopRe ((body.take a).length + m.start) []).head? with
      | some r => simp
      | none =>
        have : mat body loopRe ((body.take a).length + m.start) [] = [] :=
          List.head?_eq_none_iff.mp hh
        rw [this] at hcp
        cases hcp
    have hlen : (body.take a).length + m.start ≤ body.length := by
      have h1 : body.length = (body.take a).length + (((body.drop a).take b).length
          + ((body.drop a).drop b).length) := by
        conv_lhs => rw [hdecomp]
        simp [List.length_append]
        omega
      have h2 : m.start ≤ ((body.drop a).take b).length := hspec.1
      omega
    exact reSearch_of_matchAt body loopRe ((body.take a).length + m.start) hlen hne h

theorem mat_chR_char (t : List Char) (c : Char) (p : Nat) (cp : Caps) (q : Nat × Caps)
    (hq : q ∈ mat t (.chR c) p cp) : t.get? p = some c := by
  simp only [mat] at hq
  cases hg : t.get? p with
  | none => simp only [hg] at hq; cases hq
  | some d =>
    simp only [hg] at hq
    by_cases hd : d = c
    · rw [hd]
    · rw [if_neg hd] at hq; cases hq

theorem loopRe_needs_o (t : List Char) (p : Nat) (cp : Caps) (r : Nat × Caps)
    (hr : r ∈ mat t loopRe p cp) : t.get? (p + 1) = some 'o' := by
  have hr2 : r ∈ mat t (.seqR (rlit ("for")) (rcat [ws1, .chR '_', ws1, rlit ("in"), ws1,
      .chR '0', .chR '.', .chR '.', .groupR 1 (rplus wordCls), ws0, .chR '{'])) p cp := hr
  simp only [mat] at hr2
  rcases List.mem_flatMap.mp hr2 with ⟨q, hq, _⟩
  have hq2 : q ∈ mat t (.seqR (.chR 'f') (.seqR (.chR 'o') (.seqR (.chR 'r') .eps))) p cp := hq
  simp only [mat] at hq2
  rcases List.mem_flatMap.mp hq2 with ⟨q1, hq1, hq3⟩
  have h1 := mat_chR_elim t 'f' p cp q1 hq1
  rcases List.mem_flatMap.mp hq3 with ⟨q2, hq4, _⟩
  have h2 := mat_chR_char t 'o' q1.1 q1.2 q2 hq4
  rw [h1.1] at h2
  exact h2

theorem lf_of_no_o (l : List Char) (h : ∀ c ∈ l, ¬ c = 'o') : reSearch l loopRe = none := by
  cases hs : reSearch l loopRe with
  | none => rfl
  | some m =>
    exfalso
    have hspec := reSearch_spec l loopRe m hs
    have ho := loopRe_needs_o l m.start [] (m.stop, m.caps) hspec.2.2.2
    exact h 'o' (List.get?_mem ho) rfl

theorem insByStart_perm (x : Nat × List String) :
    ∀ l, List.Perm (insByStart x l) (x :: l) := by
  intro l
  induction l with
  | nil => simp [insByStart]
  | cons y r ih =>
    simp only [insByStart]
    by_cases h : y.1 < x.1
    · rw [if_pos h]
      exact (ih.cons y).trans (List.Perm.swap x y r)
    · rw [if_neg h]

theorem sortByStart_perm : ∀ l, List.Perm (sortByStart l) l := by
  intro l
  induction l with
  | nil => simp [sortByStart]
  | cons y r ih =>
    show List.Perm (insByStart y (sortByStart r)) (y :: r)
    exact (insByStart_perm y (sortByStart r)).trans (ih.cons y)

theorem insByStart_sorted (x : Nat × List String) :
    ∀ l, List.Sorted (fun a b => a.1 ≤ b.1) l →
      List.Sorted (fun a b => a.1 ≤ b.1) (insByStart x l) := by
  intro l
  induction l with
  | nil => intro _; simp [insByStart]
  | cons y r ih =>
    intro hs
    rw [List.sorted_cons] at hs
    simp only [insByStart]
    by_cases h : y.1 < x.1
    · rw [if_pos h]
      rw [List.sorted_cons]
      constructor
      · intro b hb
        rcases List.mem_cons.mp ((insByStart_perm x r).mem_iff.mp hb) with h1 | h1
        · rw [h1]; omega
        · exact hs.1 b h1
      · exact ih hs.2
    · rw [if_neg h]
      rw [List.sorted_cons]
      constructor
      · intro b hb
        rcases List.mem_cons.mp hb with h1 | h1
        · rw [h1]; omega
        · have := hs.1 b h1
          omega
      · rw [List.sorted_cons]
        exact hs

theorem sortByStart_sorted : ∀ l, List.Sorted (fun a b => a.1 ≤ b.1) (sortByStart l) := by
  intro l
  induction l with
  | nil => simp [sortByStart]
  | cons y r ih =>
    show List.Sorted (fun a b => a.1 ≤ b.1) (insByStart y (sortByStart r))
    exact insByStart_sorted y (sortByStart r) ih

theorem sortByStart_eq_of_perm (l l' : List (Nat × List String))
    (h : List.Perm l l') (hnd : (l.map Prod.fst).Nodup) :
    sortByStart l = sortByStart l' := by
  have hp : List.Perm (sortByStart l) (sortByStart l') :=
    (sortByStart_perm l).trans (h.trans (sortByStart_perm l').symm)
  have hnd1 : ((sortByStart l).map Prod.fst).Nodup :=
    (((sortByStart_perm l).map Prod.fst).nodup_iff).mpr hnd
  have hnd2 : ((sortByStart l').map Prod.fst).Nodup :=
    ((hp.map Prod.fst).nodup_iff).mp hnd1
  have hstrict : ∀ (s : List (Nat × List String)),
      List.Sorted (fun a b => a.1 ≤ b.1) s → (s.map Prod.fst).Nodup →
      List.Sorted (fun a b : Nat × List String => a.1 < b.1) s := by
    intro s hs hn
    have hne : List.Pairwise (fun a b : Nat × List String => a.1 ≠ b.1) s :=
      (List.pairwise_map).mp hn
    exact (hs.and hne).imp (fun h => by omega)
  haveI : IsAntisymm (Nat × List String) (fun a b => a.1 < b.1) :=
    ⟨fun a b h1 h2 => absurd h1 (by omega)⟩
  exact List.eq_of_perm_of_sorted hp
    (hstrict _ (sortByStart_sorted l) hnd1)
    (hstrict _ (sortByStart_sorted l') hnd2)

theorem exceptBind_err {e a b : Type} (x : e) (f : a → Except e b) :
    ((Except.error x : Except e a) >>= f) = Except.error x := rfl

/-! ### Digit and repr character sets: no serialized value can contain the
loop construct, because `repr` output never contains the letter `o`. -/

theorem digitChar_ne_o (k : Nat) (hk : k < 10) : ¬ digitChar k = 'o' := by
  interval_cases k <;> decide

theorem natDigitsAux_no_o : ∀ (fuel n : Nat) (c : Char), c ∈ natDigitsAux fuel n → ¬ c = 'o' := by
  intro fuel
  induction fuel with
  | zero => intro n c h; simp [natDigitsAux] at h
  | succ fu ih =>
    intro n c h
    simp only [natDigitsAux] at h
    by_cases hn : n = 0
    · rw [if_pos hn] at h; cases h
    · rw [if_neg hn] at h
      rcases List.mem_append.mp h with h1 | h1
      · exact ih (n / 10) c h1
      · have h2 : c = digitChar (n % 10) := by simpa using h1
        rw [h2]
        exact digitChar_ne_o _ (Nat.mod_lt n (by omega))

theorem natDigits_no_o (n : Nat) : ∀ c ∈ natDigits n, ¬ c = 'o' := by
  intro c h
  unfold natDigits at h
  by_cases hn : n = 0
  · rw [if_pos hn] at h
    have h2 : c = '0' := by simpa using h
    rw [h2]; decide
  · rw [if_neg hn] at h
    exact natDigitsAux_no_o (n + 1) n c h

theorem zeroChars_no_o (n : Nat) : ∀ c ∈ zeroChars n, ¬ c = 'o' := by
  intro c h
  have h2 : c = '0' := List.eq_of_mem_replicate h
  rw [h2]; decide

theorem fmtFixed_no_o (ds : List Char) (e10 : Int) (hds : ∀ c ∈ ds, ¬ c = 'o') :
    ∀ c ∈ fmtFixed ds e10, ¬ c = 'o' := by
  intro c h
  simp only [fmtFixed] at h
  by_cases h0 : (0 : Int) ≤ e10
  · rw [if_pos h0] at h
    by_cases h1 : ds.length ≤ e10.toNat + 1
    · rw [if_pos h1] at h
      rcases List.mem_append.mp h with h2 | h2
      · rcases List.mem_append.mp h2 with h3 | h3
        · exact hds c h3
        · exact zeroChars_no_o _ c h3
      · have h3 : c = '.' ∨ c = '0' := by simpa using h2
        rcases h3 with h4 | h4 <;> (rw [h4]; decide)
    · rw [if_neg h1] at h
      rcases List.mem_append.mp h with h2 | h2
      · exact hds c (List.mem_of_mem_take h2)
      · rcases List.mem_cons.mp h2 with h3 | h3
        · rw [h3]; decide
        · exact hds c (List.mem_of_mem_drop h3)
  · rw [if_neg h0] at h
    rcases List.mem_cons.mp h with h1 | h1
    · rw [h1]; decide
    rcases List.mem_cons.mp h1 with h2 | h2
    · rw [h2]; decide
    rcases List.mem_append.mp h2 with h3 | h3
    · exact zeroChars_no_o _ c h3
    · exact hds c h3

theorem fmtSci_no_o (ds : List Char) (e10 : Int) (hds : ∀ c ∈ ds, ¬ c = 'o') :
    ∀ c ∈ fmtSci ds e10, ¬ c = 'o' := by
  intro c h
  have hedig : ∀ d ∈ (if (natDigits e10.natAbs).length < 2
      then '0' :: natDigits e10.natAbs else natDigits e10.natAbs), ¬ d = 'o' := by
    intro d hd
    by_cases hl : (natDigits e10.natAbs).length < 2
    · rw [if_pos hl] at hd
      rcases List.mem_cons.mp hd with h5 | h5
      · rw [h5]; decide
      · exact natDigits_no_o _ d h5
    · rw [if_neg hl] at hd
      exact natDigits_no_o _ d hd
  have hsign : ¬ (if e10 < 0 then '-' else '+') = 'o' := by
    split <;> decide
  cases ds with
  | nil =>
    simp only [fmtSci] at h
    rcases List.mem_append.mp h with h1 | h1
    · have h2 : c = '0' := by simpa using h1
      rw [h2]; decide
    · rcases List.mem_cons.mp h1 with h2 | h2
      · rw [h2]; decide
      rcases List.mem_cons.mp h2 with h3 | h3
      · rw [h3]; exact hsign
      · exact hedig c h3
  | cons d rest =>
    simp only [fmtSci] at h
    rcases List.mem_append.mp h with h1 | h1
    · by_cases hre : rest.isEmpty
      · rw [if_pos hre] at h1
        have h2 : c = d := by simpa using h1
        rw [h2]
        exact hds d (List.mem_cons_self d rest)
      · rw [if_neg hre] at h1
        rcases List.mem_cons.mp h1 with h2 | h2
        · rw [h2]; exact hds d (List.mem_cons_self d rest)
        rcases List.mem_cons.mp h2 with h3 | h3
        · rw [h3]; decide
        · exact hds c (List.mem_cons_of_mem d h3)
    · rcases List.mem_cons.mp h1 with h2 | h2
      · rw [h2]; decide
      rcases List.mem_cons.mp h2 with h3 | h3
      · rw [h3]; exact hsign
      · exact hedig c h3

theorem pyReprPos_no_o (f : PyFloat) : ∀ c ∈ pyReprPos f, ¬ c = 'o' := by
  intro c h
  simp only [pyReprPos] at h
  split at h
  · exact fmtFixed_no_o _ _ (natDigits_no_o _) c h
  · exact fmtSci_no_o _ _ (natDigits_no_o _) c h

theorem pyRepr_no_o (x : PyFloat) : ∀ c ∈ (pyRepr x).toList, ¬ c = 'o' := by
  intro c h
  simp only [pyRepr] at h
  split at h
  · have h2 : c ∈ ['0', '.', '0'] := h
    rcases List.mem_cons.mp h2 with h3 | h3
    · rw [h3]; decide
    rcases List.mem_cons.mp h3 with h4 | h4
    · rw [h4]; decide
    · have h5 : c = '0' := by simpa using h4
      rw [h5]; decide
  · split at h
    · have h2 : c ∈ '-' :: pyReprPos { m := -x.m, e := x.e } := h
      rcases List.mem_cons.mp h2 with h3 | h3
      · rw [h3]; decide
      · exact pyReprPos_no_o _ c h3
    · exact pyReprPos_no_o x c h

/-- A serialized value (`value_to_string`) never contains the loop construct. -/
theorem value_lf (v : PyFloat) : reSearch (value_to_string v).toList loopRe = none :=
  lf_of_no_o _ (pyRepr_no_o v)

/-- A captured group is a contiguous slice of the body, so it is loop-free
whenever the body is. -/
theorem matchGroup_lf (body : List Char) (hb : reSearch body loopRe = none)
    (m : MatchR) (i : Nat) : reSearch (matchGroup body m i) loopRe = none := by
  unfold matchGroup
  cases hc : capSpan m i with
  | some sp => exact slice_lf body sp.1 (sp.2 - sp.1) hb
  | none =>
    show reSearch ([] : List Char) loopRe = none
    decide

theorem parse_bool_lf (t : List Char) (s : String) (h : parse_bool t = .ok s) :
    reSearch s.toList loopRe = none := by
  simp only [parse_bool] at h
  split at h
  · have h2 : "1" = s := Except.ok.inj h
    subst h2
    decide
  · split at h
    · have h2 : "0" = s := Except.ok.inj h
      subst h2
      decide
    · cases h

theorem parse_mix_blend_lf (t : List Char) (s : String) (h : parse_mix_blend t = .ok s) :
    reSearch s.toList loopRe = none := by
  simp only [parse_mix_blend] at h
  split at h
  · have h2 : "setup" = s := Except.ok.inj h
    subst h2
    decide
  · split at h
    · have h2 : "first" = s := Except.ok.inj h
      subst h2
      decide
    · split at h
      · have h2 : "replace" = s := Except.ok.inj h
        subst h2
        decide
      · split at h
        · have h2 : "add" = s := Except.ok.inj h
          subst h2
          decide
        · cases h

theorem parse_physics_mode_lf (t : List Char) (s : String) (h : parse_physics_mode t = .ok s) :
    reSearch s.toList loopRe = none := by
  simp only [parse_physics_mode] at h
  split at h
  · have h2 : "none" = s := Except.ok.inj h
    subst h2
    decide
  · split at h
    · have h2 : "reset" = s := Except.ok.inj h
      subst h2
      decide
    · split at h
      · have h2 : "update" = s := Except.ok.inj h
        subst h2
        decide
      · split at h
        · have h2 : "pose" = s := Except.ok.inj h
          subst h2
          decide
        · cases h

theorem entryValBld_lf (flag : String) (hf : reSearch flag.toList loopRe = none)
    (body : List Char) (env : Env) (hb : reSearch body loopRe = none)
    (m : MatchR) (toks : List String) (hok : entryValBld flag body env m = .ok toks) :
    ∀ s ∈ toks, reSearch s.toList loopRe = none := by
  intro s hs
  cases hv : parse_value (matchGroup body m 1) env with
  | error e => simp only [entryValBld, hv, exceptBind_err] at hok; cases hok
  | ok v =>
    simp only [entryValBld, hv, exceptBind_ok] at hok
    have ht : [flag, value_to_string v] = toks := Except.ok.inj hok
    rw [← ht] at hs
    rcases List.mem_cons.mp hs with h1 | h1
    · rw [h1]; exact hf
    · have h2 : s = value_to_string v := by simpa using h1
      rw [h2]
      exact value_lf v

theorem entryBoolBld_lf (flag : String) (hf : reSearch flag.toList loopRe = none)
    (body : List Char) (env : Env)
    (m : MatchR) (toks : List String) (hok : entryBoolBld flag body env m = .ok toks) :
    ∀ s ∈ toks, reSearch s.toList loopRe = none := by
  intro s hs
  cases hv : parse_bool (matchGroup body m 1) with
  | error e => simp only [entryBoolBld, hv, exceptBind_err] at hok; cases hok
  | ok b =>
    simp only [entryBoolBld, hv, exceptBind_ok] at hok
    have ht : [flag, b] = toks := Except.ok.inj hok
    rw [← ht] at hs
    rcases List.mem_cons.mp hs with h1 | h1
    · rw [h1]; exact hf
    · have h2 : s = b := by simpa using h1
      rw [h2]
      exact parse_bool_lf _ b hv

/-- Every token any library builder emits on a loop-free body is loop-free:
it is a fixed literal, a serialized value, a normalized enum / bool string,
or a captured slice of the body itself. -/
theorem builder_tokens_lf (body : List Char) (env : Env)
    (hb : reSearch body loopRe = none) (pb : RE × Bld) (hpb : pb ∈ commandPatterns)
    (m : MatchR) (toks : List String) (hok : pb.2 body env m = .ok toks) :
    ∀ s ∈ toks, reSearch s.toList loopRe = none := by
  intro s hs
  simp only [commandPatterns, List.mem_cons, List.not_mem_nil, or_false] at hpb
  rcases hpb with h|h|h|h|h|h|h|h|h|h|h|h|h|h|h|h|h|h|h|h|h
  · subst h
    have hok2 : bldSetMix body env m = .ok toks := hok
    cases hv : parse_value (matchGroup body m 3) env with
    | error e => simp only [bldSetMix, hv, exceptBind_err] at hok2; cases hok2
    | ok v =>
      simp only [bldSetMix, hv, exceptBind_ok] at hok2
      have ht : _ = toks := Except.ok.inj hok2
      rw [← ht] at hs
      rcases List.mem_cons.mp hs with h1 | h1
      · rw [h1]; decide
      rcases List.mem_cons.mp h1 with h2 | h2
      · rw [h2]; exact matchGroup_lf body hb m 1
      rcases List.mem_cons.mp h2 with h3 | h3
      · rw [h3]; exact matchGroup_lf body hb m 2
      · have h4 : s = value_to_string v := by simpa using h3
        rw [h4]; exact value_lf v
  · subst h
    have hok2 : bldSetAnimation body env m = .ok toks := hok
    cases hv : parse_bool (matchGroup body m 3) with
    | error e => simp only [bldSetAnimation, hv, exceptBind_err] at hok2; cases hok2
    | ok b =>
      simp only [bldSetAnimation, hv, exceptBind_ok] at hok2
      have ht : _ = toks := Except.ok.inj hok2
      rw [← ht] at hs
      rcases List.mem_cons.mp hs with h1 | h1
      · rw [h1]; decide
      rcases List.mem_cons.mp h1 with h2 | h2
      · rw [h2]; exact matchGroup_lf body hb m 1
      rcases List.mem_cons.mp h2 with h3 | h3
      · rw [h3]; exact matchGroup_lf body hb m 2
      · have h4 : s = b := by simpa using h3
        rw [h4]; exact parse_bool_lf _ b hv
  · subst h
    have hok2 : bldAddAnimation body env m = .ok toks := hok
    cases hv : parse_bool (matchGroup body m 3) with
    | error e => simp only [bldAddAnimation, hv, exceptBind_err] at hok2; cases hok2
    | ok b =>
      cases hv2 : parse_value (matchGroup body m 4) env with
      | error e =>
        simp only [bldAddAnimation, hv, hv2, exceptBind_ok, exceptBind_err] at hok2
        cases hok2
      | ok v =>
        simp only [bldAddAnimation, hv, hv2, exceptBind_ok] at hok2
        have ht : _ = toks := Except.ok.inj hok2
        rw [← ht] at hs
        rcases List.mem_cons.mp hs with h1 | h1
        · rw [h1]; decide
        rcases List.mem_cons.mp h1 with h2 | h2
        · rw [h2]; exact matchGroup_lf body hb m 1
        rcases List.mem_cons.mp h2 with h3 | h3
        · rw [h3]; exact matchGroup_lf body hb m 2
        rcases List.mem_cons.mp h3 with h4 | h4
        · rw [h4]; exact parse_bool_lf _ b hv
        · have h5 : s = value_to_string v := by simpa using h4
          rw [h5]; exact value_lf v
  · subst h
    have hok2 : bldSetEmpty body env m = .ok toks := hok
    cases hv : parse_value (matchGroup body m 2) env with
    | error e => simp only [bldSetEmpty, hv, exceptBind_err] at hok2; cases hok2
    | ok v =>
      simp only [bldSetEmpty, hv, exceptBind_ok] at hok2
      have ht : _ = toks := Except.ok.inj hok2
      rw [← ht] at hs
      rcases List.mem_cons.mp hs with h1 | h1
      · rw [h1]; decide
      rcases List.mem_cons.mp h1 with h2 | h2
      · rw [h2]; exact matchGroup_lf body hb m 1
      · have h3 : s = value_to_string v := by simpa using h2
        rw [h3]; exact value_lf v
  · subst h
    have hok2 : bldAddEmpty body env m = .ok toks := hok
    cases hv : parse_value (matchGroup body m 2) env with
    | error e => simp only [bldAddEmpty, hv, exceptBind_err] at hok2; cases hok2
    | ok v1 =>
      cases hv2 : parse_value (matchGroup body m 3) env with
      | error e =>
        simp only [bldAddEmpty, hv, hv2, exceptBind_ok, exceptBind_err] at hok2
        cases hok2
      | ok v2 =>
        simp only [bldAddEmpty, hv, hv2, exceptBind_ok] at hok2
        have ht : _ = toks := Except.ok.inj hok2
        rw [← ht] at hs
        rcases List.mem_cons.mp hs with h1 | h1
        · rw [h1]; decide
        rcases List.mem_cons.mp h1 with h2 | h2
        · rw [h2]; exact matchGroup_lf body hb m 1
        rcases List.mem_cons.mp h2 with h3 | h3
        · rw [h3]; exact value_lf v1
        · have h4 : s = value_to_string v2 := by simpa using h3
          rw [h4]; exact value_lf v2
  · subst h
    have hok2 : bldSetSkinSome body env m = .ok toks := hok
    have ht : _ = toks := Except.ok.inj hok2
    rw [← ht] at hs
    rcases List.mem_cons.mp hs with h1 | h1
    · rw [h1]; decide
    · have h2 : s = String.mk (matchGroup body m 1) := by simpa using h1
      rw [h2]; exact matchGroup_lf body hb m 1
  · subst h
    have hok2 : bldSetSkinNone body env m = .ok toks := hok
    have ht : _ = toks := Except.ok.inj hok2
    rw [← ht] at hs
    rcases List.mem_cons.mp hs with h1 | h1
    · rw [h1]; decide
    · have h2 : s = "none" := by simpa using h1
      rw [h2]; decide
  · subst h
    have hok2 : bldEntryMixBlend body env m = .ok toks := hok
    cases hv : parse_mix_blend (matchGroup body m 1) with
    | error e => simp only [bldEntryMixBlend, hv, exceptBind_err] at hok2; cases hok2
    | ok b =>
      simp only [bldEntryMixBlend, hv, exceptBind_ok] at hok2
      have ht : _ = toks := Except.ok.inj hok2
      rw [← ht] at hs
      rcases List.mem_cons.mp hs with h1 | h1
      · rw [h1]; decide
      · have h2 : s = b := by simpa using h1
        rw [h2]; exact parse_mix_blend_lf _ b hv
  · subst h
    exact entryValBld_lf ("--entry-alpha") (by decide) body env hb m toks hok s hs
  · subst h
    exact entryValBld_lf ("--entry-event-threshold") (by decide) body env hb m toks hok s hs
  · subst h
    exact entryValBld_lf ("--entry-alpha-attachment-threshold") (by decide) body env hb m toks hok s hs
  · subst h
    exact entryValBld_lf ("--entry-mix-attachment-threshold") (by decide) body env hb m toks hok s hs
  · subst h
    exact entryValBld_lf ("--entry-mix-draw-order-threshold") (by decide) body env hb m toks hok s hs
  · subst h
    exact entryBoolBld_lf ("--entry-hold-previous") (by decide) body env m toks hok s hs
  · subst h
    exact entryBoolBld_lf ("--entry-reverse") (by decide) body env m toks hok s hs
  · subst h
    exact entryBoolBld_lf ("--entry-shortest-rotation") (by decide) body env m toks hok s hs
  · subst h
    have hok2 : bldEntryResetRot body env m = .ok toks := hok
    have ht : _ = toks := Except.ok.inj hok2
    rw [← ht] at hs
    have h1 : s = "--entry-reset-rotation-directions" := by simpa using hs
    rw [h1]; decide
  · subst h
    have hok2 : bldStep body env m = .ok toks := hok
    cases hv : parse_value (matchGroup body m 1) env with
    | error e => simp only [bldStep, hv, exceptBind_err] at hok2; cases hok2
    | ok v =>
      simp only [bldStep, hv, exceptBind_ok] at hok2
      have ht : _ = toks := Except.ok.inj hok2
      rw [← ht] at hs
      rcases List.mem_cons.mp hs with h1 | h1
      · rw [h1]; decide
      rcases List.mem_cons.mp h1 with h2 | h2
      · rw [h2]; decide
      rcases List.mem_cons.mp h2 with h3 | h3
      · rw [h3]; decide
      · have h4 : s = value_to_string v := by simpa using h3
        rw [h4]; exact value_lf v
  · subst h
    have hok2 : bldStepPhysics body env m = .ok toks := hok
    cases hv : parse_value (matchGroup body m 1) env with
    | error e => simp only [bldStepPhysics, hv, exceptBind_err] at hok2; cases hok2
    | ok v =>
      simp only [bldStepPhysics, hv, exceptBind_ok] at hok2
      have ht : _ = toks := Except.ok.inj hok2
      rw [← ht] at hs
      rcases List.mem_cons.mp hs with h1 | h1
      · rw [h1]; decide
      rcases List.mem_cons.mp h1 with h2 | h2
      · rw [h2]; decide
      rcases List.mem_cons.mp h2 with h3 | h3
      · rw [h3]; decide
      · have h4 : s = value_to_string v := by simpa using h3
        rw [h4]; exact value_lf v
  · subst h
    have hok2 : bldStepWithPhysics body env m = .ok toks := hok
    cases hp : parse_physics_mode (matchGroup body m 2) with
    | error e => simp only [bldStepWithPhysics, hp, exceptBind_err] at hok2; cases hok2
    | ok pm =>
      cases hv : parse_value (matchGroup body m 1) env with
      | error e =>
        simp only [bldStepWithPhysics, hp, hv, exceptBind_ok, exceptBind_err] at hok2
        cases hok2
      | ok v =>
        simp only [bldStepWithPhysics, hp, hv, exceptBind_ok] at hok2
        have ht : _ = toks := Except.ok.inj hok2
        rw [← ht] at hs
        rcases List.mem_cons.mp hs with h1 | h1
        · rw [h1]; decide
        rcases List.mem_cons.mp h1 with h2 | h2
        · rw [h2]; exact parse_physics_mode_lf _ pm hp
        rcases List.mem_cons.mp h2 with h3 | h3
        · rw [h3]; decide
        · have h4 : s = value_to_string v := by simpa using h3
          rw [h4]; exact value_lf v
  · subst h
    have hok2 : bldUpdate body env m = .ok toks := hok
    cases hv : parse_value (matchGroup body m 1) env with
    | error e => simp only [bldUpdate, hv, exceptBind_err] at hok2; cases hok2
    | ok v =>
      simp only [bldUpdate, hv, exceptBind_ok] at hok2
      have ht : _ = toks := Except.ok.inj hok2
      rw [← ht] at hs
      rcases List.mem_cons.mp hs with h1 | h1
      · rw [h1]; decide
      rcases List.mem_cons.mp h1 with h2 | h2
      · rw [h2]; decide
      rcases List.mem_cons.mp h2 with h3 | h3
      · rw [h3]; decide
      · have h4 : s = value_to_string v := by simpa using h3
        rw [h4]; exact value_lf v

/-! ### The pooled match list: permutation invariance and token origin -/

theorem mapExc_cons {α β : Type} (f : α → Except Err β) (a : α) (r : List α) :
    mapExc f (a :: r) = (f a >>= fun b => mapExc f r >>= fun rest => .ok (b :: rest)) := rfl

theorem mapExc_mem_elim {α β : Type} (f : α → Except Err β) :
    ∀ (l : List α) (bs : List β), mapExc f l = .ok bs →
    ∀ b ∈ bs, ∃ a ∈ l, f a = .ok b := by
  intro l
  induction l with
  | nil =>
    intro bs h b hb
    have h2 : ([] : List β) = bs := Except.ok.inj h
    rw [← h2] at hb
    cases hb
  | cons a r ih =>
    intro bs h b hb
    rw [mapExc_cons] at h
    cases hfa : f a with
    | error e => rw [hfa, exceptBind_err] at h; cases h
    | ok b0 =>
      rw [hfa, exceptBind_ok] at h
      cases hrest : mapExc f r with
      | error e => rw [hrest, exceptBind_err] at h; cases h
      | ok rest =>
        rw [hrest, exceptBind_ok] at h
        have h2 : b0 :: rest = bs := Except.ok.inj h
        rw [← h2] at hb
        rcases List.mem_cons.mp hb with h3 | h3
        · exact ⟨a, List.mem_cons_self a r, by rw [hfa, h3]⟩
        · rcases ih rest hrest b h3 with ⟨a2, ha2, hfa2⟩
          exact ⟨a2, List.mem_cons_of_mem a ha2, hfa2⟩

theorem collectMatches_cons (re : RE) (fn : Bld) (rest : List (RE × Bld))
    (t : List Char) (env : Env) :
    collectMatches ((re, fn) :: rest) t env =
      (mapExc (fun m =>
        match fn t env m with
        | .ok toks => .ok (m.start, toks)
        | .error e => .error (Err.failedAt m.start e)) (finditer t re) >>= fun bms =>
       collectMatches rest t env >>= fun more => .ok (bms ++ more)) := rfl

theorem collectMatches_cons_elim (re : RE) (fn : Bld) (rest : List (RE × Bld))
    (t : List Char) (env : Env) (ms : List (Nat × List String))
    (h : collectMatches ((re, fn) :: rest) t env = .ok ms) :
    ∃ bms more,
      mapExc (fun m =>
        match fn t env m with
        | .ok toks => .ok (m.start, toks)
        | .error e => .error (Err.failedAt m.start e)) (finditer t re) = .ok bms ∧
      collectMatches rest t env = .ok more ∧ ms = bms ++ more := by
  rw [collectMatches_cons] at h
  cases hb : mapExc (fun m =>
      match fn t env m with
      | .ok toks => .ok (m.start, toks)
      | .error e => .error (Err.failedAt m.start e)) (finditer t re) with
  | error e => rw [hb, exceptBind_err] at h; cases h
  | ok bms =>
    rw [hb, exceptBind_ok] at h
    cases hm : collectMatches rest t env with
    | error e => rw [hm, exceptBind_err] at h; cases h
    | ok more =>
      rw [hm, exceptBind_ok] at h
      exact ⟨bms, more, rfl, rfl, (Except.ok.inj h).symm⟩

theorem collectMatches_cons_intro (re : RE) (fn : Bld) (rest : List (RE × Bld))
    (t : List Char) (env : Env) (bms more : List (Nat × List String))
    (hb : mapExc (fun m =>
        match fn t env m with
        | .ok toks => .ok (m.start, toks)
        | .error e => .error (Err.failedAt m.start e)) (finditer t re) = .ok bms)
    (hm : collectMatches rest t env = .ok more) :
    collectMatches ((re, fn) :: rest) t env = .ok (bms ++ more) := by
  rw [collectMatches_cons, hb, exceptBind_ok, hm, exceptBind_ok]

/-- Pooling the pattern matches commutes (up to permutation of the pool) with
permuting the pattern library. -/
theorem collectMatches_perm (t : List Char) (env : Env) :
    ∀ (ps ps' : List (RE × Bld)), List.Perm ps ps' →
    ∀ ms, collectMatches ps t env = .ok ms →
    ∃ ms', collectMatches ps' t env = .ok ms' ∧ List.Perm ms ms' := by
  intro ps ps' hperm
  induction hperm with
  | nil => intro ms h; exact ⟨ms, h, List.Perm.refl ms⟩
  | cons x htl ih =>
    obtain ⟨re, fn⟩ := x
    intro ms h
    rcases collectMatches_cons_elim re fn _ t env ms h with ⟨bms, more, hb, hm, hms⟩
    rcases ih more hm with ⟨more', hm', hp⟩
    refine ⟨bms ++ more', collectMatches_cons_intro re fn _ t env bms more' hb hm', ?_⟩
    rw [hms]
    exact (List.Perm.refl bms).append hp
  | swap x y l =>
    obtain ⟨re1, fn1⟩ := x
    obtain ⟨re2, fn2⟩ := y
    intro ms h
    rcases collectMatches_cons_elim re2 fn2 _ t env ms h with ⟨bms2, rest2, hb2, hm2, hms2⟩
    rcases collectMatches_cons_elim re1 fn1 _ t env rest2 hm2 with ⟨bms1, more, hb1, hm1, hms1⟩
    refine ⟨bms1 ++ (bms2 ++ more),
      collectMatches_cons_intro re1 fn1 _ t env bms1 (bms2 ++ more) hb1
        (collectMatches_cons_intro re2 fn2 _ t env bms2 more hb2 hm1), ?_⟩
    rw [hms2, hms1]
    rw [← List.append_assoc, ← List.append_assoc]
    exact List.perm_append_comm.append_right more
  | trans h1 h2 ih1 ih2 =>
    intro ms h
    rcases ih1 ms h with ⟨ms1, hh1, hp1⟩
    rcases ih2 ms1 hh1 with ⟨ms2, hh2, hp2⟩
    exact ⟨ms2, hh2, hp1.trans hp2⟩

/-- On a loop-free body every token of every pooled match is loop-free. -/
theorem collectMatches_tokens_lf (body : List Char) (env : Env)
    (hb : reSearch body loopRe = none) :
    ∀ (ps : List (RE × Bld)), (∀ pb ∈ ps, pb ∈ commandPatterns) →
    ∀ ms, collectMatches ps body env = .ok ms →
    ∀ x ∈ ms, ∀ s ∈ x.2, reSearch s.toList loopRe = none := by
  intro ps
  induction ps with
  | nil =>
    intro _ ms h x hx
    have h2 : ([] : List (Nat × List String)) = ms := Except.ok.inj h
    rw [← h2] at hx
    cases hx
  | cons pb rest ih =>
    obtain ⟨re, fn⟩ := pb
    intro hsub ms h x hx s hs
    rcases collectMatches_cons_elim re fn rest body env ms h with ⟨bms, more, hbm, hmore, hms⟩
    rw [hms] at hx
    rcases List.mem_append.mp hx with h1 | h1
    · rcases mapExc_mem_elim _ _ _ hbm x h1 with ⟨mm, hmm, hfx⟩
      cases hfn : fn body env mm with
      | error e => simp only [hfn] at hfx; cases hfx
      | ok toks =>
        simp only [hfn] at hfx
        have hx2 : (mm.start, toks) = x := Except.ok.inj hfx
        have hsmem : s ∈ toks := by
          rw [← hx2] at hs
          exact hs
        exact builder_tokens_lf body env hb (re, fn)
          (hsub (re, fn) (List.mem_cons_self _ _)) mm toks hfn s hsmem
    · exact ih (fun q hq => hsub q (List.mem_cons_of_mem _ hq)) more hmore x h1 s hs

/-- Claim C3: with the pooled match list `ms` of the pattern library over the
body, `parse_commands_no_loops` returns exactly the concatenation of the
pooled token lists sorted by increasing source offset (the textual order of
the originating calls); the sorted pool is a permutation of the pool and is
sorted by offset; when the match offsets are pairwise distinct (the documented
non-overlap assumption on call sites), trying the library's patterns in any
other order compiles to the same token list; and on a loop-free body no output
token contains the symbolic repetition construct (the `for _ in 0..N` loop
header), i.e. repetition is fully materialized. -/
theorem claim_C3_order_invariance (body : List Char) (env : Env)
    (ms : List (Nat × List String))
    (hms : collectMatches commandPatterns body env = .ok ms) :
    parse_commands_no_loops body env =
      .ok ((sortByStart ms).flatMap (fun x => x.2)) ∧
    List.Perm (sortByStart ms) ms ∧
    List.Sorted (fun a b => a.1 ≤ b.1) (sortByStart ms) ∧
    ((ms.map Prod.fst).Nodup → ∀ ps, List.Perm ps commandPatterns →
      parse_commands_no_loops_with ps body env = parse_commands_no_loops body env) ∧
    (reSearch body loopRe = none →
      ∀ s ∈ (sortByStart ms).flatMap (fun x => x.2), reSearch s.toList loopRe = none) := by
  refine ⟨?_, sortByStart_perm ms, sortByStart_sorted ms, ?_, ?_⟩
  · unfold parse_commands_no_loops parse_commands_no_loops_with
    rw [hms, exceptBind_ok]
  · intro hnd ps hp
    rcases collectMatches_perm body env commandPatterns ps hp.symm ms hms with ⟨ms', hms', hpm⟩
    have hnd' : (ms'.map Prod.fst).Nodup := ((hpm.map Prod.fst).nodup_iff).mp hnd
    unfold parse_commands_no_loops parse_commands_no_loops_with
    rw [hms, hms', exceptBind_ok, exceptBind_ok,
      sortByStart_eq_of_perm ms' ms hpm.symm hnd']
  · intro hb s hs
    rcases List.mem_flatMap.mp hs with ⟨x, hx, hsx⟩
    have hx2 : x ∈ ms := (sortByStart_perm ms).mem_iff.mp hx
    exact collectMatches_tokens_lf body env hb commandPatterns (fun q hq => hq)
      ms hms x hx2 s hsx

def c3Body : List Char :=
  ("step(&mut state, &mut skeleton, 2.0); skeleton.set_skin(None);").toList

def msC3 : List (Nat × List String) :=
  [(38, ["--set-skin", "none"]), (0, ["--physics", "none", "--step", "2.0"])]

/-- Claim C3 witness: on a body whose `set_skin` call follows the `step` call
textually while its pattern is tried first, the pool is built out of textual
order, the compiled list is the offset-sorted concatenation, the reversed
pattern library compiles to the identical list, and a sample output token is
loop-free. -/
theorem claim_C3_witness :
    parse_commands_no_loops c3Body [] =
      .ok ["--physics", "none", "--step", "2.0", "--set-skin", "none"] ∧
    parse_commands_no_loops_with commandPatterns.reverse c3Body [] =
      parse_commands_no_loops c3Body [] ∧
    reSearch ("--set-skin").toList loopRe = none := by
  have h := claim_C3_order_invariance c3Body [] msC3 (by decide)
  exact ⟨h.1,
    h.2.2.2.1 (by decide) commandPatterns.reverse commandPatterns.reverse_perm,
    h.2.2.2.2 (by decide) "--set-skin" (by decide)⟩

end S2P
